import Mathlib

/-!
Verification of the Merkle Mountain Range (MMR) core of this repository
(`src/crypto/src/merkle/mmr/full.rs`), as a shallow embedding in Lean.

Modelling conventions:
* Rust `usize` values are embedded as `Nat`.  All quantities involved
  (forest values, buffer indices) are bounded by the number of appends, so
  no overflow wrap-around can occur on a 64-bit machine for reachable
  states; `usize` subtraction appears only where the source is already
  non-negative or explicitly saturating, and is embedded as truncating
  `Nat` subtraction.
* The digest type `RpoDigest` is abstract for this core; definitions are
  parametrised by a type `D` and a merge function `m : D → D → D`
  standing for `Rpo256::merge`.  Concrete witnesses instantiate `D` with
  the free algebra `FreeD` below, in which `merge` is a free constructor.
* Rust `Vec<RpoDigest>` indexing `v[i]` is embedded as `List.getD i default`;
  an out-of-bounds access (a Rust panic) yields `default`.  The separate
  `collectSafe` checker below mirrors the index arithmetic of the path
  collection loop and is `true` only when every access of the loop is in
  bounds and no `usize` subtraction underflows, which is what the
  no-panic part of the error-handling claim is about.
-/

namespace MmrSpec

/-- Free digest algebra: distinct leaves are distinct, and `node` (the free
`merge`) is injective.  Used to instantiate the parametric development on
concrete inputs. -/
inductive FreeD where
  | leaf : Nat → FreeD
  | node : FreeD → FreeD → FreeD
deriving DecidableEq, Repr

instance : Inhabited FreeD := ⟨FreeD.leaf 0⟩

/-! ### ForestMath (pure functions on the forest integer, from `full.rs`) -/

/-- `count_ones` of a `usize`, by binary recursion. -/
def popcount (n : Nat) : Nat :=
  if n = 0 then 0 else popcount (n / 2) + n % 2
termination_by n
decreasing_by exact Nat.div_lt_self (by omega) (by omega)

/-- `nodes_in_forest` from `full.rs`: `forest * 2 - forest.count_ones()`. -/
def nodes_in_forest (forest : Nat) : Nat :=
  forest * 2 - popcount forest

/-- The composite `x & high_bitmask(bit)` from `full.rs`.
`high_bitmask(bit)` is `usize::MAX << bit` (and `0` once `bit` exceeds the
word size); and-ing `x` with it clears the low `bit` bits of `x`.  On `Nat`
the mask itself has no finite value, so the embedding fuses mask creation
and application: `(x >>> bit) <<< bit` equals `x & high_bitmask(bit)` for
every `x < 2^64` and every `bit`, including the saturating case
`bit ≥ 64`, where both sides are `0`. -/
def high_bitmask_and (bit : Nat) (x : Nat) : Nat :=
  (x >>> bit) <<< bit

/-- `leaf_to_corresponding_tree` from `full.rs`.  `u32::ilog2` is `Nat.log2`
(the source value `after` is nonzero whenever this function is reached with
`pos < forest`, see `leaf_to_corresponding_tree_lt`). -/
def leaf_to_corresponding_tree (pos forest : Nat) : Option Nat :=
  if pos ≥ forest then
    none
  else
    let before := forest &&& pos
    let after := forest ^^^ before
    let tree := Nat.log2 after
    some tree

/-! ### The Mmr structure and its operations (from `full.rs`) -/

/-- The `Mmr` struct: forest descriptor and the postorder node buffer. -/
structure Mmr (D : Type) where
  forest : Nat
  nodes : List D
deriving Repr, DecidableEq

/-- `MmrError` from `full.rs`. -/
inductive MmrError where
  | InvalidPosition : Nat → MmrError
deriving DecidableEq, Repr

/-- `MmrProof`: forest value at proof time, leaf position, and the sibling
path (leaf-to-root).  `MerklePath` is embedded as a plain list. -/
structure MmrProof (D : Type) where
  forest : Nat
  position : Nat
  merkle_path : List D
deriving Repr, DecidableEq

/-- `MmrPeaks`: the accumulator snapshot. -/
structure MmrPeaks (D : Type) where
  num_leaves : Nat
  peaks : List D
deriving Repr, DecidableEq

/-- `InnerNodeInfo`: one internal node together with its two children. -/
structure InnerNodeInfo (D : Type) where
  value : D
  left : D
  right : D
deriving Repr, DecidableEq

variable {D : Type} [Inhabited D]

/-- The `while tree_depth > 0` loop of `Mmr::collect_merkle_path_and_value`
(`full.rs` lines 213-233), verbatim: the loop state is `(tree_depth, index)`,
and the function returns the collected siblings in push order together with
the final `index`.  Note the source tests `relative_pos & tree_depth` and
steps `tree_depth >>= 1`, with `tree_depth` initialised to the tree's *bit
index* by the caller. -/
def collectLoop (nodes : List D) (relative_pos index_offset : Nat) :
    Nat → Nat → List D × Nat
  | tree_depth, index =>
    if h : 0 < tree_depth then
      let bit := relative_pos &&& tree_depth
      let right_offset := index - 1
      let left_offset := right_offset - nodes_in_forest tree_depth
      let step : Nat × D :=
        if bit ≠ 0 then
          (right_offset, nodes.getD (index_offset + left_offset) default)
        else
          (left_offset, nodes.getD (index_offset + right_offset) default)
      let rest := collectLoop nodes relative_pos index_offset (tree_depth >>> 1) step.1
      (step.2 :: rest.1, rest.2)
    else
      ([], index)
termination_by tree_depth _ => tree_depth
decreasing_by
  simpa [Nat.shiftRight_eq_div_pow] using Nat.div_lt_self h (by omega)

/-- `Mmr::collect_merkle_path_and_value`: run the loop, reverse the path to
leaf-to-root order, and read the final value. -/
def collect_merkle_path_and_value (nodes : List D)
    (tree_bit relative_pos index_offset index : Nat) : D × List D :=
  let r := collectLoop nodes relative_pos index_offset tree_bit index
  (nodes.getD (index_offset + r.2) default, r.1.reverse)

/-- `Mmr::open` (`full.rs` lines 99-124). -/
def Mmr.open (mmr : Mmr D) (pos : Nat) : Except MmrError (MmrProof D) :=
  match leaf_to_corresponding_tree pos mmr.forest with
  | none => .error (.InvalidPosition pos)
  | some tree_bit =>
    let forest_target := 1 <<< tree_bit
    let forest_before := high_bitmask_and (tree_bit + 1) mmr.forest
    let index_offset := nodes_in_forest forest_before
    let index := nodes_in_forest forest_target - 1
    let relative_pos := pos - forest_before
    let pv := collect_merkle_path_and_value mmr.nodes tree_bit relative_pos index_offset index
    .ok { forest := mmr.forest, position := pos, merkle_path := pv.2 }

/-- `Mmr::get` (`full.rs` lines 131-152). -/
def Mmr.get (mmr : Mmr D) (pos : Nat) : Except MmrError D :=
  match leaf_to_corresponding_tree pos mmr.forest with
  | none => .error (.InvalidPosition pos)
  | some tree_bit =>
    let forest_target := 1 <<< tree_bit
    let forest_before := high_bitmask_and (tree_bit + 1) mmr.forest
    let index_offset := nodes_in_forest forest_before
    let index := nodes_in_forest forest_target - 1
    let relative_pos := pos - forest_before
    let pv := collect_merkle_path_and_value mmr.nodes tree_bit relative_pos index_offset index
    .ok pv.1

/-- The merge loop of `Mmr::add` (`full.rs` lines 162-171).  The source's
`left_tree` variable always holds `1 << i` (it starts at `1` and is doubled
by `left_tree <<= 1` each iteration); the embedding recurses on the level
`i` so that termination is by the decreasing value `forest >>> i`. -/
def addCascade (m : D → D → D) (forest : Nat) :
    Nat → List D → Nat → D → List D
  | i, nodes, left_offset, right =>
    if h : forest &&& (1 <<< i) ≠ 0 then
      let right' := m (nodes.getD left_offset default) right
      addCascade m forest (i + 1) (nodes ++ [right'])
        (left_offset - nodes_in_forest (1 <<< i)) right'
    else
      nodes
termination_by i _ _ _ => forest >>> i
decreasing_by
  simp only [Nat.shiftRight_eq_div_pow] at *
  have h1 : forest &&& 2 ^ i ≠ 0 := by simpa [Nat.shiftLeft_eq] using h
  have h2 : forest.testBit i = true := by
    rcases h3 : forest.testBit i with _ | _
    · exact absurd (by simpa [Nat.and_two_pow, h3] using rfl) h1
    · rfl
  rw [Nat.testBit_to_div_mod] at h2
  have h4 : forest / 2 ^ (i + 1) = forest / 2 ^ i / 2 := by
    rw [Nat.pow_succ, Nat.div_div_eq_div_mul]
  rw [h4]
  have h5 : 0 < forest / 2 ^ i := by
    by_contra h6
    simp only [Nat.not_lt, Nat.le_zero] at h6
    simp [h6] at h2
  omega

/-- `Mmr::add` (`full.rs` lines 155-174): push the element, cascade-merge
equal-depth trees, then increment the forest. -/
def Mmr.add (m : D → D → D) (mmr : Mmr D) (el : D) : Mmr D :=
  let nodes := mmr.nodes ++ [el]
  let left_offset := nodes.length - 2
  { forest := mmr.forest + 1
    nodes := addCascade m mmr.forest 0 nodes left_offset el }

/-- `impl From<T> for Mmr`: build an `Mmr` by adding every element in order
to `Mmr::new()`. -/
def mmrOfList (m : D → D → D) (L : List D) : Mmr D :=
  L.foldl (Mmr.add m) { forest := 0, nodes := [] }

/-- Modelled from the spec: `TrueBitPositionIterator` (the `BitPositions`
utility, `bit.rs`, absent from `src/`) yields the ascending sequence of set
bit indices of its argument; `bitsAsc` is that sequence as a list. -/
def bitsAsc (n : Nat) : List Nat :=
  if n = 0 then []
  else (if n % 2 = 1 then [0] else []) ++ (bitsAsc (n / 2)).map (· + 1)
termination_by n
decreasing_by exact Nat.div_lt_self (by omega) (by omega)

/-- Modelled from the spec: the reversed (`.rev()`) iterator, i.e. the set
bit indices in descending order. -/
def bitsDesc (n : Nat) : List Nat :=
  (bitsAsc n).reverse

/-- The `scan(0, |offset, el| { *offset += el; Some(*offset) })` combinator
used by `Mmr::accumulator`: running partial sums. -/
def cumSums (acc : Nat) : List Nat → List Nat
  | [] => []
  | x :: xs => (acc + x) :: cumSums (acc + x) xs

/-- `Mmr::accumulator` (`full.rs` lines 177-189): for each set bit of the
forest, highest first, accumulate the tree's node count and read the buffer
entry just before the running offset. -/
def Mmr.accumulator (mmr : Mmr D) : MmrPeaks D :=
  let sizes := (bitsDesc mmr.forest).map (fun bit => nodes_in_forest (1 <<< bit))
  let offsets := cumSums 0 sizes
  { num_leaves := mmr.forest
    peaks := offsets.map (fun offset => mmr.nodes.getD (offset - 1) default) }

/-! ### The inner-node iterator (`MmrNodes`, `full.rs` lines 261-333) -/

/-- The mutable state of the `MmrNodes` iterator: the scratch `forest`
bitmask of pending left nodes, the last right node yielded, and the buffer
cursor. -/
structure MmrNodesState where
  forest : Nat
  last_right : Nat
  index : Nat
deriving Repr, DecidableEq

/-- `MmrNodes::next` (`full.rs` lines 278-332), as a state-passing function:
`none` is the iterator's `None`, otherwise the yielded `InnerNodeInfo` and
the updated state.  `usize::MAX << 1` masks off bit 0, so the `target` is
the forest with its lowest (single-leaf-tree) bit removed. -/
def mmrNodesNext (mmr : Mmr D) (s : MmrNodesState) :
    Option (InnerNodeInfo D × MmrNodesState) :=
  let target := 2 * (mmr.forest / 2)
  if s.forest < target then
    let s1 : MmrNodesState :=
      if s.last_right = 0 then
        { forest := s.forest ||| 1, last_right := s.last_right ||| 1, index := s.index + 2 }
      else s
    let right_nodes := nodes_in_forest s1.last_right
    let parent := s1.last_right <<< 1
    let forest2 := s1.forest ^^^ s1.last_right
    let s2 : MmrNodesState :=
      if forest2 &&& parent = 0 then
        { forest := forest2 ^^^ parent, last_right := 0, index := s1.index }
      else
        { forest := forest2, last_right := parent, index := s1.index }
    let value := mmr.nodes.getD s2.index default
    let right := mmr.nodes.getD (s2.index - 1) default
    let left := mmr.nodes.getD (s2.index - 1 - right_nodes) default
    some (⟨value, left, right⟩, { s2 with index := s2.index + 1 })
  else
    none

/-- The initial iterator state of `Mmr::inner_nodes`. -/
def innerNodesInit : MmrNodesState := ⟨0, 0, 0⟩

/-! ### Reference structure: perfect Merkle trees in postorder

These definitions are the mathematical reading of the spec's data model
(§3 "Node buffer"): a perfect binary Merkle tree over a power-of-two block
of leaves, encoded in postorder, and the forest as the concatenation of
such trees, one per set bit of the forest value, highest bit first.  The
invariance theorems below relate the imperative buffer built by `Mmr.add`
to this structure. -/

/-- Root digest of the perfect Merkle tree of depth `d` over (the first
`2^d` elements of) `ls`. -/
def merkleRoot (m : D → D → D) : Nat → List D → D
  | 0, ls => ls.headD default
  | d + 1, ls => m (merkleRoot m d (ls.take (2 ^ d))) (merkleRoot m d (ls.drop (2 ^ d)))

/-- Postorder encoding of the perfect Merkle tree of depth `d` over `ls`:
left subtree block, right subtree block, root. -/
def potEnc (m : D → D → D) : Nat → List D → List D
  | 0, ls => [ls.headD default]
  | d + 1, ls =>
    potEnc m d (ls.take (2 ^ d)) ++ potEnc m d (ls.drop (2 ^ d)) ++ [merkleRoot m (d + 1) ls]

/-- The forest buffer determined by a list of tree depths (descending) and
the leaf sequence: each tree consumes `2^b` leaves. -/
def specForest (m : D → D → D) : List Nat → List D → List D
  | [], _ => []
  | b :: bs, L => potEnc m b (L.take (2 ^ b)) ++ specForest m bs (L.drop (2 ^ b))

/-- The peaks (tree roots) determined by a list of tree depths (descending)
and the leaf sequence. -/
def specPeaks (m : D → D → D) : List Nat → List D → List D
  | [], _ => []
  | b :: bs, L => merkleRoot m b (L.take (2 ^ b)) :: specPeaks m bs (L.drop (2 ^ b))

/-- The internal nodes (with children) of the perfect Merkle tree of depth
`d` over `ls`, in postorder. -/
def innerPot (m : D → D → D) : Nat → List D → List (InnerNodeInfo D)
  | 0, _ => []
  | d + 1, ls =>
    innerPot m d (ls.take (2 ^ d)) ++ innerPot m d (ls.drop (2 ^ d)) ++
      [⟨merkleRoot m (d + 1) ls,
        merkleRoot m d (ls.take (2 ^ d)), merkleRoot m d (ls.drop (2 ^ d))⟩]

/-- The internal nodes of the whole forest, trees in descending-depth
order. -/
def specInner (m : D → D → D) : List Nat → List D → List (InnerNodeInfo D)
  | [], _ => []
  | b :: bs, L => innerPot m b (L.take (2 ^ b)) ++ specInner m bs (L.drop (2 ^ b))

/-! ### `MmrPeaks` verification (spec-modelled)

`MmrPeaks::verify` lives in a file of this repository that is not under
`src/` (only `full.rs` and its tests are present), so it is modelled from
the spec (§4.4): fold the proof's Merkle path against the opened value
with `merge`, leaf to root, choosing the left/right operand order by the
same bit test on the relative position that `Mmr::open` uses; locate the
expected peak through `leaf_to_corresponding_tree` and the accumulator's
high-to-low peak order; return `true` iff the recomputed root equals that
peak and the proof's forest matches `num_leaves`. -/

/-- The sequence of `tree_depth` values tested by `Mmr::open`'s collection
loop, in root-to-leaf order (the loop halves `tree_depth` each level). -/
def maskSeq : Nat → List Nat
  | d =>
    if h : 0 < d then d :: maskSeq (d >>> 1) else []
termination_by d => d
decreasing_by
  simpa [Nat.shiftRight_eq_div_pow] using Nat.div_lt_self h (by omega)

/-- Modelled from the spec: fold the Merkle path (leaf-to-root) against the
opened value; at each level the sibling goes on the left exactly when the
bit test on the relative position says the current node is a right child —
the same test `Mmr::open` used at that level (`masks` is the leaf-to-root
list of that loop's `tree_depth` values). -/
def foldPath (m : D → D → D) (relative_pos : Nat) :
    List Nat → List D → D → D
  | _, [], acc => acc
  | [], _, acc => acc
  | mask :: masks, sib :: path, acc =>
    foldPath m relative_pos masks path
      (if relative_pos &&& mask ≠ 0 then m sib acc else m acc sib)

/-- Modelled from the spec: `MmrPeaks::verify` (§4.4). -/
def MmrPeaks.verify [DecidableEq D] (m : D → D → D) (pk : MmrPeaks D) (value : D)
    (proof : MmrProof D) : Bool :=
  match leaf_to_corresponding_tree proof.position proof.forest with
  | none => false
  | some tree_bit =>
    let forest_before := high_bitmask_and (tree_bit + 1) proof.forest
    let relative_pos := proof.position - forest_before
    let root := foldPath m relative_pos (maskSeq tree_bit).reverse proof.merkle_path value
    let peak_index := (bitsDesc proof.forest).indexOf tree_bit
    decide (pk.num_leaves = proof.forest) &&
      decide (pk.peaks.getD peak_index default = root)

/-- Drive the iterator for at most `fuel` steps, collecting the yields. -/
def mmrNodesRun (mmr : Mmr D) : Nat → MmrNodesState → List (InnerNodeInfo D) × MmrNodesState
  | 0, s => ([], s)
  | fuel + 1, s =>
    match mmrNodesNext mmr s with
    | none => ([], s)
    | some (a, s') =>
      let r := mmrNodesRun mmr fuel s'
      (a :: r.1, r.2)

/-- The eight free leaves `d0..d7`, the smallest append sequence that makes
the forest contain a tree of depth 3. -/
def leaves8 : List FreeD :=
  [FreeD.leaf 0, FreeD.leaf 1, FreeD.leaf 2, FreeD.leaf 3,
   FreeD.leaf 4, FreeD.leaf 5, FreeD.leaf 6, FreeD.leaf 7]

/-- The postorder buffer of the 8-leaf MMR over `leaves8` (one perfect tree
of depth 3). -/
def nodes8 : List FreeD :=
  [FreeD.leaf 0, FreeD.leaf 1, FreeD.node (FreeD.leaf 0) (FreeD.leaf 1),
   FreeD.leaf 2, FreeD.leaf 3, FreeD.node (FreeD.leaf 2) (FreeD.leaf 3),
   FreeD.node (FreeD.node (FreeD.leaf 0) (FreeD.leaf 1)) (FreeD.node (FreeD.leaf 2) (FreeD.leaf 3)),
   FreeD.leaf 4, FreeD.leaf 5, FreeD.node (FreeD.leaf 4) (FreeD.leaf 5),
   FreeD.leaf 6, FreeD.leaf 7, FreeD.node (FreeD.leaf 6) (FreeD.leaf 7),
   FreeD.node (FreeD.node (FreeD.leaf 4) (FreeD.leaf 5)) (FreeD.node (FreeD.leaf 6) (FreeD.leaf 7)),
   FreeD.node
     (FreeD.node (FreeD.node (FreeD.leaf 0) (FreeD.leaf 1)) (FreeD.node (FreeD.leaf 2) (FreeD.leaf 3)))
     (FreeD.node (FreeD.node (FreeD.leaf 4) (FreeD.leaf 5)) (FreeD.node (FreeD.leaf 6) (FreeD.leaf 7)))]

/-- The (incorrect) Merkle path that `Mmr::open` actually returns for
position 0 at 8 leaves: length 2 instead of 3, with offsets read from the
wrong subtrees. -/
def badPath8 : MmrProof FreeD :=
  { forest := 8, position := 0,
    merkle_path := [FreeD.leaf 5,
      FreeD.node (FreeD.node (FreeD.leaf 4) (FreeD.leaf 5))
        (FreeD.node (FreeD.leaf 6) (FreeD.leaf 7))] }

/-! ### Access-safety checker for the path-collection loop

`collectLoop` embeds `Vec` indexing as `List.getD`, which silently returns
a default on an out-of-bounds access where Rust would panic, and embeds
`usize` subtraction as truncating `Nat` subtraction where Rust (in a debug
build) would panic on underflow.  `collectSafe` re-runs the exact index
arithmetic of the loop and returns `true` only when every subtraction is
underflow-free and every buffer read (including the final value read) is
in bounds: it is the no-panic predicate for `Mmr::get`/`Mmr::open`. -/

def collectSafe (nodesLen relative_pos index_offset : Nat) :
    Nat → Nat → Bool
  | tree_depth, index =>
    if h : 0 < tree_depth then
      let bit := relative_pos &&& tree_depth
      let right_offset := index - 1
      let left_offset := right_offset - nodes_in_forest tree_depth
      (decide (nodes_in_forest tree_depth + 1 ≤ index) &&
        decide (index_offset + index ≤ nodesLen)) &&
      collectSafe nodesLen relative_pos index_offset (tree_depth >>> 1)
        (if bit ≠ 0 then right_offset else left_offset)
    else
      decide (index_offset + index < nodesLen)
termination_by tree_depth _ => tree_depth
decreasing_by
  simpa [Nat.shiftRight_eq_div_pow] using Nat.div_lt_self h (by omega)

/-- The no-panic predicate for one `Mmr::get`/`Mmr::open` call: `true` when
either the call rejects the position outright, or every internal access of
the path-collection loop it performs is in bounds. -/
def accessSafe {D : Type} [Inhabited D] (mmr : Mmr D) (pos : Nat) : Bool :=
  match leaf_to_corresponding_tree pos mmr.forest with
  | none => true
  | some tree_bit =>
    let forest_target := 1 <<< tree_bit
    let forest_before := high_bitmask_and (tree_bit + 1) mmr.forest
    let index_offset := nodes_in_forest forest_before
    let index := nodes_in_forest forest_target - 1
    let relative_pos := pos - forest_before
    collectSafe mmr.nodes.length relative_pos index_offset tree_bit index

/-! ### Arithmetic toolkit: sums over bit lists -/

/-- Sum of `2^b` over a list of bit positions. -/
def sumPow : List Nat → Nat
  | [] => 0
  | b :: bs => 2 ^ b + sumPow bs

/-- Sum of tree node counts `2^(b+1) - 1` over a list of tree depths. -/
def nodesSum : List Nat → Nat
  | [] => 0
  | b :: bs => (2 ^ (b + 1) - 1) + nodesSum bs

/-- The descending run `[i+c-1, …, i+1, i]` of `c` consecutive depths. -/
def descFrom : Nat → Nat → List Nat
  | 0, _ => []
  | c + 1, i => (i + c) :: descFrom c i

theorem one_shiftLeft_eq (b : Nat) : 1 <<< b = 2 ^ b := by
  simp [Nat.shiftLeft_eq]

theorem popcount_zero : popcount 0 = 0 := by simp [popcount]

theorem popcount_two_mul (n : Nat) : popcount (2 * n) = popcount n := by
  rcases Nat.eq_zero_or_pos n with h | h
  · simp [h]
  · rw [popcount]
    have : ¬(2 * n = 0) := by omega
    simp only [this, if_false]
    have h1 : 2 * n / 2 = n := by omega
    have h2 : 2 * n % 2 = 0 := by omega
    simp [h1, h2]

theorem popcount_two_mul_add_one (n : Nat) : popcount (2 * n + 1) = popcount n + 1 := by
  rw [popcount]
  have : ¬(2 * n + 1 = 0) := by omega
  simp only [this, if_false]
  have h1 : (2 * n + 1) / 2 = n := by omega
  have h2 : (2 * n + 1) % 2 = 1 := by omega
  simp [h1, h2]

theorem popcount_le (n : Nat) : popcount n ≤ n := by
  induction n using Nat.strong_induction_on with
  | _ n ih =>
    rw [popcount]
    split
    · omega
    · have := ih (n / 2) (Nat.div_lt_self (by omega) (by omega))
      omega

theorem popcount_pos (n : Nat) (h : 0 < n) : 0 < popcount n := by
  induction n using Nat.strong_induction_on with
  | _ n ih =>
    rw [popcount]
    split
    · omega
    · rcases Nat.eq_zero_or_pos (n % 2) with h2 | h2
      · have h3 : 0 < n / 2 := by omega
        have := ih (n / 2) (Nat.div_lt_self (by omega) (by omega)) h3
        omega
      · omega

theorem popcount_two_pow (b : Nat) : popcount (2 ^ b) = 1 := by
  induction b with
  | zero => simp [popcount]
  | succ b ih =>
    have : 2 ^ (b + 1) = 2 * 2 ^ b := by ring
    rw [this, popcount_two_mul, ih]

theorem nodes_in_forest_two_pow (b : Nat) : nodes_in_forest (2 ^ b) = 2 ^ (b + 1) - 1 := by
  rw [nodes_in_forest, popcount_two_pow]
  have : 2 ^ (b + 1) = 2 ^ b * 2 := by ring
  omega

theorem bitsAsc_zero : bitsAsc 0 = [] := by simp [bitsAsc]

theorem bitsAsc_two_mul (n : Nat) (h : 0 < n) :
    bitsAsc (2 * n) = (bitsAsc n).map (· + 1) := by
  rw [bitsAsc]
  have h1 : ¬(2 * n = 0) := by omega
  have h2 : ¬(2 * n % 2 = 1) := by omega
  have h3 : 2 * n / 2 = n := by omega
  simp [h1, h2, h3]

theorem bitsAsc_two_mul_add_one (n : Nat) :
    bitsAsc (2 * n + 1) = 0 :: (bitsAsc n).map (· + 1) := by
  rw [bitsAsc]
  have h1 : ¬(2 * n + 1 = 0) := by omega
  have h2 : (2 * n + 1) % 2 = 1 := by omega
  have h3 : (2 * n + 1) / 2 = n := by omega
  simp [h1, h2, h3]

theorem sumPow_append (a b : List Nat) : sumPow (a ++ b) = sumPow a + sumPow b := by
  induction a with
  | nil => simp [sumPow]
  | cons x xs ih => simp [sumPow, ih]; ring

theorem sumPow_map_add_one (bs : List Nat) : sumPow (bs.map (· + 1)) = 2 * sumPow bs := by
  induction bs with
  | nil => simp [sumPow]
  | cons x xs ih => simp [sumPow, ih]; ring

theorem sumPow_reverse (bs : List Nat) : sumPow bs.reverse = sumPow bs := by
  induction bs with
  | nil => rfl
  | cons x xs ih => simp [sumPow, sumPow_append, ih]; ring

theorem sumPow_bitsAsc (n : Nat) : sumPow (bitsAsc n) = n := by
  induction n using Nat.strong_induction_on with
  | _ n ih =>
    rcases Nat.eq_zero_or_pos n with h | h
    · simp [h, bitsAsc_zero, sumPow]
    · have hd := ih (n / 2) (Nat.div_lt_self (by omega) (by omega))
      rcases Nat.even_or_odd n with he | ho
      · obtain ⟨q, hq⟩ := he
        have hq' : n = 2 * q := by omega
        subst hq'
        rw [bitsAsc_two_mul q (by omega), sumPow_map_add_one]
        have : 2 * q / 2 = q := by omega
        rw [this] at hd
        omega
      · obtain ⟨q, hq⟩ := ho
        subst hq
        rw [bitsAsc_two_mul_add_one q]
        have : (2 * q + 1) / 2 = q := by omega
        rw [this] at hd
        simp [sumPow, sumPow_map_add_one, hd]
        omega

theorem length_bitsAsc (n : Nat) : (bitsAsc n).length = popcount n := by
  induction n using Nat.strong_induction_on with
  | _ n ih =>
    rcases Nat.eq_zero_or_pos n with h | h
    · simp [h, bitsAsc_zero, popcount_zero]
    · have hd := ih (n / 2) (Nat.div_lt_self (by omega) (by omega))
      rcases Nat.even_or_odd n with he | ho
      · obtain ⟨q, hq⟩ := he
        have hq' : n = 2 * q := by omega
        subst hq'
        have : 2 * q / 2 = q := by omega
        rw [this] at hd
        rw [bitsAsc_two_mul q (by omega), popcount_two_mul]
        simpa using hd
      · obtain ⟨q, hq⟩ := ho
        subst hq
        have : (2 * q + 1) / 2 = q := by omega
        rw [this] at hd
        rw [bitsAsc_two_mul_add_one q, popcount_two_mul_add_one]
        simpa using hd

theorem nodesSum_append (a b : List Nat) : nodesSum (a ++ b) = nodesSum a + nodesSum b := by
  induction a with
  | nil => simp [nodesSum]
  | cons x xs ih => simp [nodesSum, ih]; ring

theorem nodesSum_reverse (bs : List Nat) : nodesSum bs.reverse = nodesSum bs := by
  induction bs with
  | nil => rfl
  | cons x xs ih => simp [nodesSum, nodesSum_append, ih]; ring

theorem nodesSum_eq (bs : List Nat) : nodesSum bs = 2 * sumPow bs - bs.length ∧
    bs.length ≤ 2 * sumPow bs := by
  induction bs with
  | nil => simp [nodesSum, sumPow]
  | cons x xs ih =>
    have hx : 0 < 2 ^ x := Nat.pos_pow_of_pos x (by omega)
    simp only [nodesSum, sumPow, List.length_cons]
    omega

/-! ### Bit-operation toolkit

All bitwise reasoning is routed through one decomposition lemma: writing a
number as `a * 2^(j+1) + b * 2^j + c` (with `b ≤ 1`, `c < 2^j`) determines
each of its bits. -/

theorem nat_bit_decomp (G j : Nat) :
    G = G / 2 ^ (j + 1) * 2 ^ (j + 1) + (G / 2 ^ j % 2) * 2 ^ j + G % 2 ^ j ∧
      G / 2 ^ j % 2 ≤ 1 ∧ G % 2 ^ j < 2 ^ j := by
  have hp : 0 < 2 ^ j := Nat.pos_pow_of_pos j (by omega)
  refine ⟨?_, by omega, Nat.mod_lt _ hp⟩
  conv_lhs => rw [← Nat.div_add_mod G (2 ^ (j + 1))]
  rw [Nat.mod_pow_succ]
  ring

theorem testBit_decomp (a b c j i : Nat) (hb : b ≤ 1) (hc : c < 2 ^ j) :
    Nat.testBit (a * 2 ^ (j + 1) + b * 2 ^ j + c) i =
      (if i < j then Nat.testBit c i
       else if i = j then decide (b = 1)
       else Nat.testBit a (i - (j + 1))) := by
  rcases Nat.lt_trichotomy i j with h | h | h
  · have e1 : 2 ^ j = 2 ^ (j - i) * 2 ^ i := by
      rw [← Nat.pow_add]
      congr 1
      omega
    have e2 : 2 ^ (j + 1) = 2 ^ (j + 1 - i) * 2 ^ i := by
      rw [← Nat.pow_add]
      congr 1
      omega
    have hpi : 0 < 2 ^ i := Nat.pos_pow_of_pos i (by omega)
    have e3 : a * 2 ^ (j + 1) + b * 2 ^ j + c =
        c + (a * 2 ^ (j + 1 - i) + b * 2 ^ (j - i)) * 2 ^ i := by
      rw [e1, e2]
      ring
    rw [Nat.testBit_to_div_mod, Nat.testBit_to_div_mod, e3,
      Nat.add_mul_div_right _ _ hpi]
    have heven : (a * 2 ^ (j + 1 - i) + b * 2 ^ (j - i)) % 2 = 0 := by
      have g1 : 2 ∣ 2 ^ (j + 1 - i) := dvd_pow_self 2 (by omega)
      have g2 : 2 ∣ 2 ^ (j - i) := dvd_pow_self 2 (by omega)
      have g3 : 2 ∣ a * 2 ^ (j + 1 - i) := g1.mul_left a
      have g4 : 2 ∣ b * 2 ^ (j - i) := g2.mul_left b
      omega
    have : (c / 2 ^ i + (a * 2 ^ (j + 1 - i) + b * 2 ^ (j - i))) % 2 = c / 2 ^ i % 2 := by
      omega
    rw [this]
    simp [h]
  · subst h
    have hdiv0 : c / 2 ^ i = 0 := Nat.div_eq_of_lt hc
    have e2 : 2 ^ (i + 1) = 2 * 2 ^ i := by rw [Nat.pow_succ']
    have hpi : 0 < 2 ^ i := Nat.pos_pow_of_pos i (by omega)
    have e3 : a * 2 ^ (i + 1) + b * 2 ^ i + c = c + (2 * a + b) * 2 ^ i := by
      rw [e2]
      ring
    rw [Nat.testBit_to_div_mod, e3, Nat.add_mul_div_right _ _ hpi, hdiv0]
    have : (0 + (2 * a + b)) % 2 = b := by omega
    rw [this]
    simp
  · have hu : i = (j + 1) + (i - (j + 1)) := by omega
    have e1 : (a * 2 ^ (j + 1) + b * 2 ^ j + c) / 2 ^ (j + 1) = a := by
      have hlt : b * 2 ^ j + c < 2 ^ (j + 1) := by
        have : 2 ^ (j + 1) = 2 * 2 ^ j := by rw [Nat.pow_succ']
        have hb2 : b * 2 ^ j ≤ 2 ^ j := by
          calc b * 2 ^ j ≤ 1 * 2 ^ j := Nat.mul_le_mul_right _ hb
          _ = 2 ^ j := by ring
        omega
      have hpj : 0 < 2 ^ (j + 1) := Nat.pos_pow_of_pos _ (by omega)
      have : a * 2 ^ (j + 1) + b * 2 ^ j + c = (b * 2 ^ j + c) + a * 2 ^ (j + 1) := by ring
      rw [this, Nat.add_mul_div_right _ _ hpj, Nat.div_eq_of_lt hlt]
      omega
    rw [Nat.testBit_to_div_mod]
    have e4 : 2 ^ i = 2 ^ (j + 1) * 2 ^ (i - (j + 1)) := by
      conv_lhs => rw [hu]
      rw [Nat.pow_add]
    rw [e4, ← Nat.div_div_eq_div_mul, e1]
    simp only [if_neg (by omega : ¬ i < j), if_neg (by omega : ¬ i = j)]
    exact (Nat.testBit_to_div_mod).symm

/-- Bits of `2^j` itself, as an instance of the decomposition. -/
theorem testBit_two_pow' (j i : Nat) :
    Nat.testBit (2 ^ j) i = (if i < j then false else if i = j then true else false) := by
  have h := testBit_decomp 0 1 0 j i (by omega) (Nat.pos_pow_of_pos j (by omega))
  simp only [Nat.zero_mul, Nat.one_mul, Nat.zero_add, Nat.add_zero] at h
  rw [h]
  simp [Nat.zero_testBit]

theorem and_two_pow_eq (G j : Nat) : G &&& 2 ^ j = (G / 2 ^ j % 2) * 2 ^ j := by
  obtain ⟨hG, hb, hc⟩ := nat_bit_decomp G j
  set q := G / 2 ^ (j + 1) with hq
  set b := G / 2 ^ j % 2 with hbdef
  set c := G % 2 ^ j with hcdef
  apply Nat.eq_of_testBit_eq
  intro i
  rw [Nat.testBit_and]
  conv_lhs => rw [hG]
  rw [testBit_decomp q b c j i hb hc, testBit_two_pow' j i]
  have hb2 : b * 2 ^ j = 0 * 2 ^ (j + 1) + b * 2 ^ j + 0 := by ring
  rw [hb2, testBit_decomp 0 b 0 j i hb (Nat.pos_pow_of_pos j (by omega))]
  rcases Nat.lt_trichotomy i j with h | h | h
  · simp [h, Nat.zero_testBit]
  · simp [h]
  · simp [if_neg (by omega : ¬ i < j), if_neg (by omega : ¬ i = j), Nat.zero_testBit]

theorem and_two_pow_eq_zero_iff (G j : Nat) : G &&& 2 ^ j = 0 ↔ G / 2 ^ j % 2 = 0 := by
  rw [and_two_pow_eq]
  have : 0 < 2 ^ j := Nat.pos_pow_of_pos j (by omega)
  constructor
  · intro h
    rcases Nat.eq_zero_or_pos (G / 2 ^ j % 2) with h2 | h2
    · exact h2
    · exfalso
      have : 1 * 2 ^ j ≤ G / 2 ^ j % 2 * 2 ^ j := Nat.mul_le_mul_right _ h2
      omega
  · intro h
    rw [h]
    ring

theorem or_two_pow_of_clear (G j : Nat) (h : G / 2 ^ j % 2 = 0) :
    G ||| 2 ^ j = G + 2 ^ j := by
  obtain ⟨hG, hb, hc⟩ := nat_bit_decomp G j
  set q := G / 2 ^ (j + 1) with hq
  set c := G % 2 ^ j with hcdef
  rw [h] at hG
  simp only [Nat.zero_mul, Nat.add_zero, Nat.zero_add] at hG
  apply Nat.eq_of_testBit_eq
  intro i
  rw [Nat.testBit_or]
  conv_lhs => rw [hG]
  have hG0 : q * 2 ^ (j + 1) + c = q * 2 ^ (j + 1) + 0 * 2 ^ j + c := by ring
  have hG1 : G + 2 ^ j = q * 2 ^ (j + 1) + 1 * 2 ^ j + c := by omega
  rw [hG0, testBit_decomp q 0 c j i (by omega) hc, testBit_two_pow' j i, hG1,
    testBit_decomp q 1 c j i (by omega) hc]
  rcases Nat.lt_trichotomy i j with h2 | h2 | h2
  · simp [h2]
  · subst h2
    simp
  · simp [if_neg (by omega : ¬ i < j), if_neg (by omega : ¬ i = j)]

theorem xor_two_pow_of_clear (G j : Nat) (h : G / 2 ^ j % 2 = 0) :
    G ^^^ 2 ^ j = G + 2 ^ j := by
  obtain ⟨hG, hb, hc⟩ := nat_bit_decomp G j
  set q := G / 2 ^ (j + 1) with hq
  set c := G % 2 ^ j with hcdef
  rw [h] at hG
  simp only [Nat.zero_mul, Nat.add_zero, Nat.zero_add] at hG
  apply Nat.eq_of_testBit_eq
  intro i
  rw [Nat.testBit_xor]
  conv_lhs => rw [hG]
  have hG0 : q * 2 ^ (j + 1) + c = q * 2 ^ (j + 1) + 0 * 2 ^ j + c := by ring
  have hG1 : G + 2 ^ j = q * 2 ^ (j + 1) + 1 * 2 ^ j + c := by omega
  rw [hG0, testBit_decomp q 0 c j i (by omega) hc, testBit_two_pow' j i, hG1,
    testBit_decomp q 1 c j i (by omega) hc]
  rcases Nat.lt_trichotomy i j with h2 | h2 | h2
  · simp [h2]
  · subst h2
    simp
  · simp [if_neg (by omega : ¬ i < j), if_neg (by omega : ¬ i = j)]

theorem xor_two_pow_of_set (G j : Nat) (h : G / 2 ^ j % 2 = 1) :
    G ^^^ 2 ^ j = G - 2 ^ j := by
  obtain ⟨hG, hb, hc⟩ := nat_bit_decomp G j
  set q := G / 2 ^ (j + 1) with hq
  set c := G % 2 ^ j with hcdef
  rw [h] at hG
  simp only [Nat.one_mul] at hG
  apply Nat.eq_of_testBit_eq
  intro i
  rw [Nat.testBit_xor]
  conv_lhs => rw [hG]
  have hG0 : q * 2 ^ (j + 1) + 2 ^ j + c = q * 2 ^ (j + 1) + 1 * 2 ^ j + c := by ring
  have hG1 : G - 2 ^ j = q * 2 ^ (j + 1) + 0 * 2 ^ j + c := by omega
  rw [hG0, testBit_decomp q 1 c j i (by omega) hc, testBit_two_pow' j i, hG1,
    testBit_decomp q 0 c j i (by omega) hc]
  rcases Nat.lt_trichotomy i j with h2 | h2 | h2
  · simp [h2]
  · subst h2
    simp
  · simp [if_neg (by omega : ¬ i < j), if_neg (by omega : ¬ i = j)]

/-- The loop condition of `addCascade`, in arithmetic form. -/
theorem cascade_cond (forest i : Nat) :
    (forest &&& (1 <<< i) ≠ 0) ↔ forest / 2 ^ i % 2 = 1 := by
  rw [one_shiftLeft_eq]
  have h := and_two_pow_eq_zero_iff forest i
  constructor
  · intro hne
    have := (not_iff_not.mpr h).mp hne
    omega
  · intro h1
    intro h0
    have := h.mp h0
    omega

/-! ### Structure lemmas for the reference forest -/

section StructureLemmas

variable {D : Type} [Inhabited D] (m : D → D → D)

theorem length_potEnc (d : Nat) (ls : List D) :
    (potEnc m d ls).length = 2 ^ (d + 1) - 1 := by
  induction d generalizing ls with
  | zero => simp [potEnc]
  | succ d ih =>
    have h1 : 1 ≤ 2 ^ (d + 1) := Nat.one_le_two_pow
    have h2 : 2 ^ (d + 1 + 1) = 2 * 2 ^ (d + 1) := by rw [Nat.pow_succ']
    simp [potEnc, ih]
    omega

theorem length_specForest (bs : List Nat) (L : List D) :
    (specForest m bs L).length = nodesSum bs := by
  induction bs generalizing L with
  | nil => simp [specForest, nodesSum]
  | cons b bs ih => simp [specForest, nodesSum, length_potEnc, ih]

theorem length_specPeaks (bs : List Nat) (L : List D) :
    (specPeaks m bs L).length = bs.length := by
  induction bs generalizing L with
  | nil => simp [specPeaks]
  | cons b bs ih => simp [specPeaks, ih]

theorem length_innerPot (d : Nat) (ls : List D) :
    (innerPot m d ls).length = 2 ^ d - 1 := by
  induction d generalizing ls with
  | zero => simp [innerPot]
  | succ d ih =>
    have h1 : 1 ≤ 2 ^ d := Nat.one_le_two_pow
    have h2 : 2 ^ (d + 1) = 2 * 2 ^ d := by rw [Nat.pow_succ']
    simp [innerPot, ih]
    omega

/-- A postorder tree block is its body followed by its root. -/
theorem potEnc_eq_body_root (d : Nat) (ls : List D) :
    ∃ B : List D, potEnc m d ls = B ++ [merkleRoot m d ls] ∧ B.length = 2 ^ (d + 1) - 2 := by
  cases d with
  | zero => exact ⟨[], by simp [potEnc, merkleRoot], by simp⟩
  | succ d =>
    refine ⟨potEnc m d (ls.take (2 ^ d)) ++ potEnc m d (ls.drop (2 ^ d)), ?_, ?_⟩
    · simp [potEnc, merkleRoot]
    · have h1 : 1 ≤ 2 ^ (d + 1) := Nat.one_le_two_pow
      have h2 : 2 ^ (d + 1 + 1) = 2 * 2 ^ (d + 1) := by rw [Nat.pow_succ']
      simp [length_potEnc]
      omega

/-- Reading the last entry of a tree block laid after a prefix yields the
tree's root. -/
theorem getD_potEnc_root (P Q : List D) (d : Nat) (ls : List D) (pos : Nat)
    (hpos : pos = P.length + (2 ^ (d + 1) - 1) - 1) :
    (P ++ potEnc m d ls ++ Q).getD pos default = merkleRoot m d ls := by
  obtain ⟨B, hB, hBlen⟩ := potEnc_eq_body_root m d ls
  have h1 : 1 ≤ 2 ^ (d + 1) := Nat.one_le_two_pow
  have hsplit : P ++ potEnc m d ls ++ Q = (P ++ B) ++ ([merkleRoot m d ls] ++ Q) := by
    rw [hB]
    simp
  rw [hsplit]
  have hlen : (P ++ B).length = pos := by
    simp [hBlen, hpos]
    omega
  rw [List.getD_append_right _ _ _ _ (by omega), hlen]
  simp

theorem specForest_append (bs cs : List Nat) (L : List D) :
    specForest m (bs ++ cs) L =
      specForest m bs (L.take (sumPow bs)) ++ specForest m cs (L.drop (sumPow bs)) := by
  induction bs generalizing L with
  | nil => simp [specForest, sumPow]
  | cons b bs ih =>
    have hb : 0 < 2 ^ b := Nat.pos_pow_of_pos b (by omega)
    simp only [List.cons_append, specForest, sumPow, List.append_eq]
    rw [ih]
    have e1 : (L.take (2 ^ b + sumPow bs)).take (2 ^ b) = L.take (2 ^ b) := by
      rw [List.take_take]
      congr 1
      omega
    have e2 : (L.take (2 ^ b + sumPow bs)).drop (2 ^ b) = (L.drop (2 ^ b)).take (sumPow bs) := by
      rw [List.drop_take]
      congr 1
      omega
    have e3 : (L.drop (2 ^ b)).drop (sumPow bs) = L.drop (2 ^ b + sumPow bs) := by
      rw [List.drop_drop, Nat.add_comm]
    rw [e1, e2, e3, List.append_assoc]

theorem specInner_append (bs cs : List Nat) (L : List D) :
    specInner m (bs ++ cs) L =
      specInner m bs (L.take (sumPow bs)) ++ specInner m cs (L.drop (sumPow bs)) := by
  induction bs generalizing L with
  | nil => simp [specInner, sumPow]
  | cons b bs ih =>
    have hb : 0 < 2 ^ b := Nat.pos_pow_of_pos b (by omega)
    simp only [List.cons_append, specInner, sumPow, List.append_eq]
    rw [ih]
    have e1 : (L.take (2 ^ b + sumPow bs)).take (2 ^ b) = L.take (2 ^ b) := by
      rw [List.take_take]
      congr 1
      omega
    have e2 : (L.take (2 ^ b + sumPow bs)).drop (2 ^ b) = (L.drop (2 ^ b)).take (sumPow bs) := by
      rw [List.drop_take]
      congr 1
      omega
    have e3 : (L.drop (2 ^ b)).drop (sumPow bs) = L.drop (2 ^ b + sumPow bs) := by
      rw [List.drop_drop, Nat.add_comm]
    rw [e1, e2, e3, List.append_assoc]

/-- Every record produced by `innerPot` is a correctly merged parent. -/
theorem innerPot_merged (d : Nat) (ls : List D) :
    ∀ info ∈ innerPot m d ls, info.value = m info.left info.right := by
  induction d generalizing ls with
  | zero => simp [innerPot]
  | succ d ih =>
    intro info hinfo
    simp only [innerPot, List.mem_append, List.mem_singleton] at hinfo
    rcases hinfo with (h | h) | h
    · exact ih _ info h
    · exact ih _ info h
    · subst h
      simp [merkleRoot]

theorem specInner_merged (bs : List Nat) (L : List D) :
    ∀ info ∈ specInner m bs L, info.value = m info.left info.right := by
  induction bs generalizing L with
  | nil => simp [specInner]
  | cons b bs ih =>
    intro info hinfo
    simp only [specInner, List.mem_append] at hinfo
    rcases hinfo with h | h
    · exact innerPot_merged m b _ info h
    · exact ih _ info h

end StructureLemmas

/-! ### The append path: `Mmr.add` builds the reference forest -/
section AddSpec

variable {D : Type} [Inhabited D] (m : D → D → D)

theorem addCascade_step (forest i : Nat) (nodes : List D) (lo : Nat) (r : D)
    (hc : forest &&& (1 <<< i) ≠ 0) :
    addCascade m forest i nodes lo r =
      addCascade m forest (i + 1) (nodes ++ [m (nodes.getD lo default) r])
        (lo - nodes_in_forest (1 <<< i)) (m (nodes.getD lo default) r) := by
  rw [addCascade]
  simp only [dif_pos hc]

theorem addCascade_stop (forest i : Nat) (nodes : List D) (lo : Nat) (r : D)
    (hc : ¬ forest &&& (1 <<< i) ≠ 0) :
    addCascade m forest i nodes lo r = nodes := by
  rw [addCascade]
  simp only [dif_neg hc]

/-- The cascade loop only pushes: the input buffer is a prefix of the
output. -/
theorem addCascade_append (forest : Nat) :
    ∀ (i : Nat) (nodes : List D) (lo : Nat) (r : D),
      ∃ s, addCascade m forest i nodes lo r = nodes ++ s := by
  intro i nodes lo r
  induction i, nodes, lo, r using addCascade.induct m forest with
  | case1 i nodes lo r hc r' ih =>
    obtain ⟨s, hs⟩ := ih
    refine ⟨r' :: s, ?_⟩
    rw [addCascade_step m forest i nodes lo r hc]
    refine hs.trans ?_
    simp
  | case2 i nodes lo r hc =>
    exact ⟨[], by rw [addCascade_stop m forest i nodes lo r hc]; simp⟩

theorem descFrom_snoc (c i : Nat) : descFrom (c + 1) i = descFrom c (i + 1) ++ [i] := by
  induction c generalizing i with
  | zero => simp [descFrom]
  | succ c ih =>
    have h1 : descFrom (c + 1 + 1) i = (i + (c + 1)) :: descFrom (c + 1) i := rfl
    have h2 : descFrom (c + 1) (i + 1) = (i + 1 + c) :: descFrom c (i + 1) := rfl
    rw [h1, ih, h2]
    have h3 : i + (c + 1) = i + 1 + c := by omega
    rw [h3]
    rfl

/-- Additive form of the geometric sum over a descending run of depths. -/
theorem sumPow_descFrom (c i : Nat) : sumPow (descFrom c i) + 2 ^ i = 2 ^ (i + c) := by
  induction c generalizing i with
  | zero => simp [descFrom, sumPow]
  | succ c ih =>
    have h1 : 2 ^ (i + (c + 1)) = 2 * 2 ^ (i + c) := by
      rw [← Nat.pow_succ']
      rfl
    have h2 := ih i
    simp only [descFrom, sumPow]
    omega

/-- Additive form of the node-count sum over a descending run of depths. -/
theorem nodesSum_descFrom (c i : Nat) :
    nodesSum (descFrom c i) + c + 2 ^ (i + 1) = 2 ^ (i + c + 1) := by
  induction c generalizing i with
  | zero => simp [descFrom, nodesSum]
  | succ c ih =>
    have h1 : 2 ^ (i + (c + 1) + 1) = 2 * 2 ^ (i + c + 1) := by
      rw [← Nat.pow_succ']
      rfl
    have h2 := ih i
    have h3 : 1 ≤ 2 ^ (i + c + 1) := Nat.one_le_two_pow
    simp only [descFrom, nodesSum]
    have h4 : i + c + 1 = i + (c + 1) := by omega
    rw [h4] at h2 h3
    omega

theorem merkleRoot_append (d : Nat) (A B : List D) (hA : A.length = 2 ^ d) :
    merkleRoot m (d + 1) (A ++ B) = m (merkleRoot m d A) (merkleRoot m d B) := by
  rw [merkleRoot, List.take_left' hA, List.drop_left' hA]

theorem potEnc_append (d : Nat) (A B : List D) (hA : A.length = 2 ^ d) :
    potEnc m (d + 1) (A ++ B) =
      potEnc m d A ++ potEnc m d B ++ [merkleRoot m (d + 1) (A ++ B)] := by
  rw [potEnc, List.take_left' hA, List.drop_left' hA]

/-- Running the cascade over the trailing run of single-depth-step trees:
if the forest `k` has set bits at positions `i, i+1, …, i+c-1` and a clear
bit at `i+c`, and the buffer ends with those trees (over leaves `T`)
followed by the already-merged block of depth `i` (over leaves `S`), the
loop merges everything into one tree of depth `i+c`. -/
theorem addCascade_run (k : Nat) :
    ∀ (c i : Nat) (Q T S : List D),
      (∀ j, i ≤ j → j < i + c → k / 2 ^ j % 2 = 1) →
      k / 2 ^ (i + c) % 2 = 0 →
      T.length + 2 ^ i = 2 ^ (i + c) →
      S.length = 2 ^ i →
      addCascade m k i (Q ++ specForest m (descFrom c i) T ++ potEnc m i S)
          (Q.length + nodesSum (descFrom c i) - 1) (merkleRoot m i S)
        = Q ++ potEnc m (i + c) (T ++ S) := by
  intro c
  induction c with
  | zero =>
    intro i Q T S _ htop hT hS
    have hp : 0 < 2 ^ i := Nat.pos_pow_of_pos i (by omega)
    have hT0 : T = [] := by
      apply List.length_eq_zero.mp
      simp only [Nat.add_zero] at hT
      omega
    subst hT0
    have hc : ¬ k &&& (1 <<< i) ≠ 0 := by
      rw [cascade_cond]
      simp only [Nat.add_zero] at htop
      omega
    rw [addCascade_stop m k i _ _ _ hc]
    simp [descFrom, specForest]
  | succ c ih =>
    intro i Q T S hbits htop hT hS
    have hpi : 0 < 2 ^ i := Nat.pos_pow_of_pos i (by omega)
    have hpi1 : 2 ^ (i + 1) = 2 * 2 ^ i := by rw [Nat.pow_succ']
    have hei : i + (c + 1) = i + 1 + c := by omega
    have hT' : T.length + 2 ^ i = 2 ^ (i + 1 + c) := by rw [← hei]; exact hT
    have hple : 2 ^ (i + 1) ≤ 2 ^ (i + 1 + c) := Nat.pow_le_pow_right (by omega) (by omega)
    -- split the trailing tree (depth i) off the descending run
    have hs : sumPow (descFrom c (i + 1)) + 2 ^ (i + 1) = 2 ^ (i + 1 + c) :=
      sumPow_descFrom c (i + 1)
    have hT1len : (T.take (sumPow (descFrom c (i + 1)))).length = sumPow (descFrom c (i + 1)) := by
      rw [List.length_take]
      omega
    have hT2len : (T.drop (sumPow (descFrom c (i + 1)))).length = 2 ^ i := by
      rw [List.length_drop]
      omega
    have h9 : (T.drop (sumPow (descFrom c (i + 1)))).take (2 ^ i) =
        T.drop (sumPow (descFrom c (i + 1))) := List.take_of_length_le hT2len.le
    have hsplitT : specForest m (descFrom (c + 1) i) T =
        specForest m (descFrom c (i + 1)) (T.take (sumPow (descFrom c (i + 1)))) ++
          potEnc m i (T.drop (sumPow (descFrom c (i + 1)))) := by
      rw [descFrom_snoc, specForest_append]
      simp only [specForest]
      rw [h9]
      simp
    -- node-count bookkeeping
    have hns1 : nodesSum (descFrom (c + 1) i) + (c + 1) + 2 ^ (i + 1) = 2 ^ (i + (c + 1) + 1) :=
      nodesSum_descFrom (c + 1) i
    have hns2 : nodesSum (descFrom c (i + 1)) + c + 2 ^ (i + 1 + 1) = 2 ^ (i + 1 + c + 1) :=
      nodesSum_descFrom c (i + 1)
    have he1 : 2 ^ (i + (c + 1) + 1) = 2 ^ (i + 1 + c + 1) := by
      congr 1
      omega
    have he2 : 2 ^ (i + 1 + 1) = 2 * 2 ^ (i + 1) := by rw [Nat.pow_succ']
    have hple1 : 2 ^ (i + 1 + c + 1) = 2 * 2 ^ (i + 1 + c) := by rw [Nat.pow_succ']
    have hlenF : (specForest m (descFrom c (i + 1)) (T.take (sumPow (descFrom c (i + 1))))).length =
        nodesSum (descFrom c (i + 1)) := length_specForest m _ _
    -- the entry read at `left_offset` is the root of the trailing depth-i tree
    have hread : (Q ++ specForest m (descFrom (c + 1) i) T ++ potEnc m i S).getD
        (Q.length + nodesSum (descFrom (c + 1) i) - 1) default =
          merkleRoot m i (T.drop (sumPow (descFrom c (i + 1)))) := by
      rw [hsplitT]
      have hassoc : Q ++ (specForest m (descFrom c (i + 1)) (T.take (sumPow (descFrom c (i + 1)))) ++
            potEnc m i (T.drop (sumPow (descFrom c (i + 1))))) ++ potEnc m i S =
          (Q ++ specForest m (descFrom c (i + 1)) (T.take (sumPow (descFrom c (i + 1))))) ++
            potEnc m i (T.drop (sumPow (descFrom c (i + 1)))) ++ potEnc m i S := by
        simp
      rw [hassoc]
      apply getD_potEnc_root
      rw [List.length_append, hlenF]
      omega
    have hbi : k / 2 ^ i % 2 = 1 := hbits i (Nat.le_refl i) (by omega)
    have hc : k &&& (1 <<< i) ≠ 0 := (cascade_cond k i).mpr hbi
    rw [addCascade_step m k i _ _ _ hc, hread]
    -- the pushed node completes a tree of depth i+1 over T₂ ++ S
    have hroot : m (merkleRoot m i (T.drop (sumPow (descFrom c (i + 1))))) (merkleRoot m i S) =
        merkleRoot m (i + 1) (T.drop (sumPow (descFrom c (i + 1))) ++ S) :=
      (merkleRoot_append m i _ S hT2len).symm
    have hpush : (Q ++ specForest m (descFrom (c + 1) i) T ++ potEnc m i S) ++
          [m (merkleRoot m i (T.drop (sumPow (descFrom c (i + 1))))) (merkleRoot m i S)] =
        Q ++ specForest m (descFrom c (i + 1)) (T.take (sumPow (descFrom c (i + 1)))) ++
          potEnc m (i + 1) (T.drop (sumPow (descFrom c (i + 1))) ++ S) := by
      rw [hroot, hsplitT, potEnc_append m i _ S hT2len]
      simp
    rw [hpush]
    -- the new left offset points at the root of the preceding tree
    have hlo : Q.length + nodesSum (descFrom (c + 1) i) - 1 - nodes_in_forest (1 <<< i) =
        Q.length + nodesSum (descFrom c (i + 1)) - 1 := by
      rw [one_shiftLeft_eq, nodes_in_forest_two_pow]
      omega
    rw [hlo, hroot]
    -- recurse on the remaining run
    have hres := ih (i + 1) Q (T.take (sumPow (descFrom c (i + 1))))
      (T.drop (sumPow (descFrom c (i + 1))) ++ S)
      (fun j hj1 hj2 => hbits j (by omega) (by omega))
      (by have h5 : i + 1 + c = i + (c + 1) := by omega
          rw [h5]
          exact htop)
      (by rw [hT1len]
          omega)
      (by rw [List.length_append, hT2len, hS]
          omega)
    rw [hres]
    have hTT : T.take (sumPow (descFrom c (i + 1))) ++ (T.drop (sumPow (descFrom c (i + 1))) ++ S) =
        T ++ S := by
      rw [← List.append_assoc, List.take_append_drop]
    rw [hTT]
    have h6 : i + 1 + c = i + (c + 1) := by omega
    rw [h6]

theorem sumPow_map_add (t : Nat) (bs : List Nat) :
    sumPow (bs.map (· + t)) = 2 ^ t * sumPow bs := by
  induction bs with
  | nil => simp [sumPow]
  | cons b bs ih =>
    simp only [List.map_cons, sumPow, ih, Nat.pow_add]
    ring

theorem descFrom_zero (t : Nat) : descFrom t 0 = (List.range t).reverse := by
  induction t with
  | zero => simp [descFrom]
  | succ t ih =>
    have h1 : descFrom (t + 1) 0 = (0 + t) :: descFrom t 0 := rfl
    rw [h1, ih, List.range_succ, List.reverse_append]
    simp

/-- Every number is (odd run) · even tail: there is a `t` with the low `t`
bits all ones and bit `t` clear. -/
theorem trailing_decomp (k : Nat) : ∃ t, k % 2 ^ t = 2 ^ t - 1 ∧ k / 2 ^ t % 2 = 0 := by
  induction k using Nat.strong_induction_on with
  | _ k ih =>
    rcases Nat.even_or_odd k with he | ho
    · refine ⟨0, by omega, ?_⟩
      obtain ⟨q, hq⟩ := he
      omega
    · obtain ⟨q, hq⟩ := ho
      obtain ⟨t', h1, h2⟩ := ih q (by omega)
      have hp : 0 < 2 ^ t' := Nat.pos_pow_of_pos t' (by omega)
      refine ⟨t' + 1, ?_, ?_⟩
      · have e0 : q = 2 ^ t' * (q / 2 ^ t') + q % 2 ^ t' := (Nat.div_add_mod q (2 ^ t')).symm
        have e1 : k = 2 ^ (t' + 1) * (q / 2 ^ t') + (2 * (q % 2 ^ t') + 1) := by
          have e2 : 2 ^ (t' + 1) * (q / 2 ^ t') = 2 * (2 ^ t' * (q / 2 ^ t')) := by
            rw [Nat.pow_succ']
            ring
          omega
        rw [e1, Nat.mul_add_mod]
        have e3 : 2 ^ (t' + 1) = 2 * 2 ^ t' := by rw [Nat.pow_succ']
        rw [Nat.mod_eq_of_lt (by omega)]
        omega
      · have e4 : k / 2 ^ (t' + 1) = q / 2 ^ t' := by
          have e5 : 2 ^ (t' + 1) = 2 * 2 ^ t' := by rw [Nat.pow_succ']
          rw [e5, ← Nat.div_div_eq_div_mul]
          have e6 : k / 2 = q := by omega
          rw [e6]
        rw [e4]
        exact h2

/-- If the low `t` bits of `k` are all ones, each of those bits tests 1. -/
theorem low_ones_bits : ∀ t k j, k % 2 ^ t = 2 ^ t - 1 → j < t → k / 2 ^ j % 2 = 1 := by
  intro t
  induction t with
  | zero => omega
  | succ t ih =>
    intro k j hmod hj
    have hp : 0 < 2 ^ t := Nat.pos_pow_of_pos t (by omega)
    have e5 : 2 ^ (t + 1) = 2 * 2 ^ t := by rw [Nat.pow_succ']
    have e0 : k = 2 ^ (t + 1) * (k / 2 ^ (t + 1)) + k % 2 ^ (t + 1) :=
      (Nat.div_add_mod k (2 ^ (t + 1))).symm
    have hq2 : 2 ^ (t + 1) * (k / 2 ^ (t + 1)) = 2 * (2 ^ t * (k / 2 ^ (t + 1))) := by
      rw [e5]
      ring
    rcases Nat.eq_zero_or_pos j with hj0 | hjpos
    · subst hj0
      simp only [Nat.pow_zero, Nat.div_one]
      omega
    · obtain ⟨j', rfl⟩ : ∃ j', j = j' + 1 := ⟨j - 1, by omega⟩
      have hhalf : k / 2 % 2 ^ t = 2 ^ t - 1 := by
        have e6 : k / 2 = 2 ^ t * (k / 2 ^ (t + 1)) + (2 ^ t - 1) := by omega
        rw [e6, Nat.mul_add_mod, Nat.mod_eq_of_lt (by omega)]
      have e7 : k / 2 ^ (j' + 1) = k / 2 / 2 ^ j' := by
        have e8 : 2 ^ (j' + 1) = 2 * 2 ^ j' := by rw [Nat.pow_succ']
        rw [e8, ← Nat.div_div_eq_div_mul]
      rw [e7]
      exact ih (k / 2) j' hhalf (by omega)

/-- `bitsAsc` of an even number, without a positivity side condition. -/
theorem bitsAsc_double (q : Nat) : bitsAsc (2 * q) = (bitsAsc q).map (· + 1) := by
  rcases Nat.eq_zero_or_pos q with h | h
  · subst h
    simp [bitsAsc_zero]
  · exact bitsAsc_two_mul q h

theorem bitsAsc_mul_two_pow (n t : Nat) : bitsAsc (n * 2 ^ t) = (bitsAsc n).map (· + t) := by
  induction t with
  | zero =>
    simp
  | succ t ih =>
    have e1 : n * 2 ^ (t + 1) = 2 * (n * 2 ^ t) := by
      rw [Nat.pow_succ']
      ring
    rw [e1, bitsAsc_double, ih, List.map_map]
    congr 1

theorem bitsAsc_succ_of_even (n : Nat) (h : n % 2 = 0) :
    bitsAsc (n + 1) = 0 :: bitsAsc n := by
  have e1 : n + 1 = 2 * (n / 2) + 1 := by omega
  have e2 : n = 2 * (n / 2) := by omega
  rw [e1, bitsAsc_two_mul_add_one]
  conv_rhs => rw [e2, bitsAsc_double]

theorem bitsAsc_low_ones (t hi : Nat) :
    bitsAsc (hi * 2 ^ t + (2 ^ t - 1)) = List.range t ++ (bitsAsc hi).map (· + t) := by
  induction t generalizing hi with
  | zero =>
    simp
  | succ t ih =>
    have hp : 0 < 2 ^ t := Nat.pos_pow_of_pos t (by omega)
    have e1 : hi * 2 ^ (t + 1) + (2 ^ (t + 1) - 1) = 2 * (hi * 2 ^ t + (2 ^ t - 1)) + 1 := by
      have e2 : hi * 2 ^ (t + 1) = 2 * (hi * 2 ^ t) := by
        rw [Nat.pow_succ']
        ring
      have e3 : 2 ^ (t + 1) = 2 * 2 ^ t := by rw [Nat.pow_succ']
      omega
    rw [e1, bitsAsc_two_mul_add_one, ih, List.map_append, List.map_map, List.range_succ_eq_map]
    have e5 : (Nat.succ) = fun b : Nat => b + 1 := by
      funext b
      omega
    have e4 : ((fun b : Nat => b + 1) ∘ fun b : Nat => b + t) = fun b : Nat => b + (t + 1) := by
      funext b
      show b + t + 1 = b + (t + 1)
      omega
    rw [e5, e4]
    rfl

/-- One `Mmr::add` step preserves the reference-forest shape of the buffer. -/
theorem add_spec (L : List D) (x : D) :
    Mmr.add m { forest := L.length, nodes := specForest m (bitsDesc L.length) L } x =
      { forest := L.length + 1, nodes := specForest m (bitsDesc (L.length + 1)) (L ++ [x]) } := by
  obtain ⟨t, hmod, hdiv⟩ := trailing_decomp L.length
  have hpt : 0 < 2 ^ t := Nat.pos_pow_of_pos t (by omega)
  have hcomm : 2 ^ t * (L.length / 2 ^ t) = L.length / 2 ^ t * 2 ^ t := Nat.mul_comm _ _
  have hdm := Nat.div_add_mod L.length (2 ^ t)
  have hk : L.length = L.length / 2 ^ t * 2 ^ t + (2 ^ t - 1) := by omega
  have hkle : L.length / 2 ^ t * 2 ^ t ≤ L.length := by omega
  -- ascending bit lists of the old and new forest
  have hasc : bitsAsc L.length = List.range t ++ (bitsAsc (L.length / 2 ^ t)).map (· + t) := by
    conv_lhs => rw [hk]
    exact bitsAsc_low_ones t (L.length / 2 ^ t)
  have hmul : (L.length / 2 ^ t + 1) * 2 ^ t = L.length / 2 ^ t * 2 ^ t + 2 ^ t := by ring
  have hk1 : L.length + 1 = (L.length / 2 ^ t + 1) * 2 ^ t := by omega
  have hasc1 : bitsAsc (L.length + 1) = t :: (bitsAsc (L.length / 2 ^ t)).map (· + t) := by
    rw [hk1, bitsAsc_mul_two_pow, bitsAsc_succ_of_even _ hdiv]
    simp
  -- descending decompositions
  have hdesc : bitsDesc L.length =
      ((bitsAsc (L.length / 2 ^ t)).map (· + t)).reverse ++ descFrom t 0 := by
    rw [bitsDesc, hasc, List.reverse_append, descFrom_zero]
  have hdesc1 : bitsDesc (L.length + 1) =
      ((bitsAsc (L.length / 2 ^ t)).map (· + t)).reverse ++ [t] := by
    rw [bitsDesc, hasc1, List.reverse_cons]
  have hsumH : sumPow (((bitsAsc (L.length / 2 ^ t)).map (· + t)).reverse) =
      L.length / 2 ^ t * 2 ^ t := by
    rw [sumPow_reverse, sumPow_map_add, sumPow_bitsAsc]
    ring
  -- the old buffer splits into the high trees and the trailing ones-run
  have hold : specForest m (bitsDesc L.length) L =
      specForest m (((bitsAsc (L.length / 2 ^ t)).map (· + t)).reverse)
          (L.take (L.length / 2 ^ t * 2 ^ t)) ++
        specForest m (descFrom t 0) (L.drop (L.length / 2 ^ t * 2 ^ t)) := by
    rw [hdesc, specForest_append, hsumH]
  have hdroplen : (L.drop (L.length / 2 ^ t * 2 ^ t)).length + 2 ^ 0 = 2 ^ (0 + t) := by
    rw [List.length_drop]
    simp only [Nat.pow_zero, Nat.zero_add]
    omega
  -- the new buffer is the high trees plus one merged tree of depth t
  have hnew : specForest m (bitsDesc (L.length + 1)) (L ++ [x]) =
      specForest m (((bitsAsc (L.length / 2 ^ t)).map (· + t)).reverse)
          (L.take (L.length / 2 ^ t * 2 ^ t)) ++
        potEnc m t (L.drop (L.length / 2 ^ t * 2 ^ t) ++ [x]) := by
    rw [hdesc1, specForest_append, hsumH,
      List.take_append_of_le_length hkle, List.drop_append_of_le_length hkle]
    congr 1
    simp only [specForest]
    rw [List.take_of_length_le (by
      rw [List.length_append, List.length_drop]
      simp
      omega)]
    simp
  -- run the cascade
  have hQlen : (specForest m (((bitsAsc (L.length / 2 ^ t)).map (· + t)).reverse)
      (L.take (L.length / 2 ^ t * 2 ^ t))).length =
        nodesSum (((bitsAsc (L.length / 2 ^ t)).map (· + t)).reverse) :=
    length_specForest m _ _
  have hlenN : (specForest m (bitsDesc L.length) L).length =
      nodesSum (((bitsAsc (L.length / 2 ^ t)).map (· + t)).reverse) +
        nodesSum (descFrom t 0) := by
    rw [length_specForest, hdesc, nodesSum_append]
  have hrun := addCascade_run m L.length t 0
    (specForest m (((bitsAsc (L.length / 2 ^ t)).map (· + t)).reverse)
      (L.take (L.length / 2 ^ t * 2 ^ t)))
    (L.drop (L.length / 2 ^ t * 2 ^ t)) [x]
    (fun j _ hj => low_ones_bits t L.length j hmod (by omega))
    (by simpa using hdiv)
    hdroplen
    (by simp)
  simp only [Mmr.add]
  have hpot0 : potEnc m 0 [x] = [x] := by simp [potEnc]
  have hroot0 : merkleRoot m 0 [x] = x := by simp [merkleRoot]
  rw [hpot0, hroot0] at hrun
  congr 1
  rw [hold, hnew]
  have hlo : (specForest m (((bitsAsc (L.length / 2 ^ t)).map (· + t)).reverse)
        (L.take (L.length / 2 ^ t * 2 ^ t)) ++
      specForest m (descFrom t 0) (L.drop (L.length / 2 ^ t * 2 ^ t)) ++ [x]).length - 2 =
      (specForest m (((bitsAsc (L.length / 2 ^ t)).map (· + t)).reverse)
        (L.take (L.length / 2 ^ t * 2 ^ t))).length + nodesSum (descFrom t 0) - 1 := by
    simp only [List.length_append, List.length_singleton]
    rw [length_specForest, length_specForest]
    omega
  rw [hlo, hrun]
  simp

theorem nodesSum_bitsDesc (k : Nat) : nodesSum (bitsDesc k) = nodes_in_forest k := by
  rw [bitsDesc, nodesSum_reverse]
  obtain ⟨h1, h2⟩ := nodesSum_eq (bitsAsc k)
  rw [h1, sumPow_bitsAsc, length_bitsAsc, nodes_in_forest]
  omega

/-- The central invariant: building an `Mmr` by appending the leaves of `L`
in order yields forest value `L.length` and exactly the reference postorder
forest buffer. -/
theorem mmrOfList_spec (L : List D) :
    mmrOfList m L = { forest := L.length, nodes := specForest m (bitsDesc L.length) L } := by
  induction L using List.reverseRecOn with
  | nil => simp [mmrOfList, bitsDesc, bitsAsc_zero, specForest]
  | append_singleton L x ih =>
    have hstep : mmrOfList m (L ++ [x]) = Mmr.add m (mmrOfList m L) x := by
      simp [mmrOfList, List.foldl_append]
    rw [hstep, ih, add_spec]
    simp

/-- The accumulator offset scan reads exactly the root of each tree. -/
theorem cumSums_peaks (bs : List Nat) :
    ∀ (P L N : List D), N = P ++ specForest m bs L →
    (cumSums P.length (bs.map (fun bit => nodes_in_forest (1 <<< bit)))).map
        (fun offset => N.getD (offset - 1) default) = specPeaks m bs L := by
  induction bs with
  | nil =>
    intro P L N _
    simp [cumSums, specPeaks]
  | cons b bs ih =>
    intro P L N hN
    have hb : nodes_in_forest (1 <<< b) = 2 ^ (b + 1) - 1 := by
      rw [one_shiftLeft_eq, nodes_in_forest_two_pow]
    have hN' : N = P ++ potEnc m b (L.take (2 ^ b)) ++ specForest m bs (L.drop (2 ^ b)) := by
      rw [hN]
      simp only [specForest]
      simp
    simp only [List.map_cons, cumSums, specPeaks]
    congr 1
    · rw [hN']
      apply getD_potEnc_root
      rw [hb]
    · have hlen : (P ++ potEnc m b (L.take (2 ^ b))).length = P.length + nodes_in_forest (1 <<< b) := by
        rw [List.length_append, length_potEnc, hb]
      rw [← hlen]
      exact ih (P ++ potEnc m b (L.take (2 ^ b))) (L.drop (2 ^ b)) N (by rw [hN'])

/-- `Mmr::accumulator` on a reference-shaped buffer returns the tree roots,
highest tree first. -/
theorem accumulator_spec (k : Nat) (L : List D) :
    Mmr.accumulator { forest := k, nodes := specForest m (bitsDesc k) L } =
      { num_leaves := k, peaks := specPeaks m (bitsDesc k) L } := by
  simp only [Mmr.accumulator]
  congr 1
  have h := cumSums_peaks m (bitsDesc k) [] L (specForest m (bitsDesc k) L) (by simp)
  simpa using h

end AddSpec

/-! ### Position bounds, tree lookup, and access safety -/

section Bounds

variable {D : Type} [Inhabited D]

theorem testBit_log2_self (n : Nat) (h : n ≠ 0) : n.testBit (Nat.log2 n) = true := by
  rw [Nat.testBit_to_div_mod]
  have h1 : 2 ^ Nat.log2 n ≤ n := Nat.log2_self_le h
  have h2 : n < 2 ^ (Nat.log2 n + 1) := Nat.lt_log2_self
  have h3 : 2 ^ (Nat.log2 n + 1) = 2 * 2 ^ Nat.log2 n := by rw [Nat.pow_succ']
  have hp : 0 < 2 ^ Nat.log2 n := Nat.pos_pow_of_pos _ (by omega)
  have h4 : n / 2 ^ Nat.log2 n = 1 := Nat.div_eq_of_lt_le (by omega) (by omega)
  rw [h4]
  rfl

theorem bit_of_xor_and (f p i : Nat) (h : (f ^^^ f &&& p).testBit i = true) :
    f.testBit i = true := by
  rw [Nat.testBit_xor, Nat.testBit_and] at h
  rcases h2 : f.testBit i with _ | _
  · rw [h2] at h
    simp at h
  · rfl

theorem ltct_none (pos forest : Nat) (h : forest ≤ pos) :
    leaf_to_corresponding_tree pos forest = none := by
  simp [leaf_to_corresponding_tree, h]

/-- For an in-range position, the lookup returns the log2 of the isolated
high bits, that value is a set bit of the forest, and the isolated value is
nonzero (so the source's `ilog2` cannot panic). -/
theorem ltct_some (pos forest : Nat) (h : pos < forest) :
    leaf_to_corresponding_tree pos forest =
        some (Nat.log2 (forest ^^^ forest &&& pos)) ∧
      forest / 2 ^ Nat.log2 (forest ^^^ forest &&& pos) % 2 = 1 ∧
      forest ^^^ forest &&& pos ≠ 0 := by
  have hne : forest ^^^ forest &&& pos ≠ 0 := by
    intro h0
    have h1 : forest = forest &&& pos := Nat.xor_eq_zero.mp h0
    have h2 : forest &&& pos ≤ pos := Nat.and_le_right
    omega
  refine ⟨?_, ?_, hne⟩
  · simp [leaf_to_corresponding_tree, show ¬ pos ≥ forest from by omega]
  · have h1 := testBit_log2_self _ hne
    have h2 := bit_of_xor_and forest pos _ h1
    rw [Nat.testBit_to_div_mod] at h2
    exact of_decide_eq_true h2

theorem get_error (mmr : Mmr D) (pos : Nat) (h : mmr.forest ≤ pos) :
    mmr.get pos = Except.error (MmrError.InvalidPosition pos) := by
  simp [Mmr.get, ltct_none pos mmr.forest h]

theorem open_error (mmr : Mmr D) (pos : Nat) (h : mmr.forest ≤ pos) :
    mmr.open pos = Except.error (MmrError.InvalidPosition pos) := by
  simp [Mmr.open, ltct_none pos mmr.forest h]

theorem get_isOk (mmr : Mmr D) (pos : Nat) (h : pos < mmr.forest) :
    (mmr.get pos).isOk = true := by
  obtain ⟨h1, -, -⟩ := ltct_some pos mmr.forest h
  simp only [Mmr.get, h1]
  rfl

theorem open_isOk (mmr : Mmr D) (pos : Nat) (h : pos < mmr.forest) :
    (mmr.open pos).isOk = true := by
  obtain ⟨h1, -, -⟩ := ltct_some pos mmr.forest h
  simp only [Mmr.open, h1]
  rfl

theorem popcount_one : popcount 1 = 1 := by simp [popcount]

theorem popcount_split : ∀ (j q r : Nat), r < 2 ^ j →
    popcount (q * 2 ^ j + r) = popcount q + popcount r := by
  intro j
  induction j with
  | zero =>
    intro q r hr
    have : r = 0 := by omega
    subst this
    simp [popcount_zero]
  | succ j ih =>
    intro q r hr
    have e0 : q * 2 ^ (j + 1) = 2 * (q * 2 ^ j) := by
      rw [Nat.pow_succ']
      ring
    have e3 : 2 ^ (j + 1) = 2 * 2 ^ j := by rw [Nat.pow_succ']
    have hrhalf : r / 2 < 2 ^ j := by omega
    rcases Nat.even_or_odd r with he | ho
    · obtain ⟨c, hc⟩ := he
      have e1 : q * 2 ^ (j + 1) + r = 2 * (q * 2 ^ j + r / 2) := by omega
      have e2 : r = 2 * (r / 2) := by omega
      rw [e1, popcount_two_mul, ih q (r / 2) hrhalf]
      conv_rhs => rw [e2, popcount_two_mul]
    · obtain ⟨c, hc⟩ := ho
      have e1 : q * 2 ^ (j + 1) + r = 2 * (q * 2 ^ j + r / 2) + 1 := by omega
      have e2 : r = 2 * (r / 2) + 1 := by omega
      rw [e1, popcount_two_mul_add_one, ih q (r / 2) hrhalf]
      conv_rhs => rw [e2, popcount_two_mul_add_one]
      omega

theorem two_mul_le_two_pow : ∀ b : Nat, 2 * b ≤ 2 ^ b := by
  intro b
  induction b with
  | zero => simp
  | succ b ih =>
    rcases Nat.eq_zero_or_pos b with h | h
    · subst h
      simp
    · have h2 : (2 : Nat) ^ 1 ≤ 2 ^ b := Nat.pow_le_pow_right (by omega) (by omega)
      have h3 : 2 ^ (b + 1) = 2 * 2 ^ b := by rw [Nat.pow_succ']
      simp only [Nat.pow_one] at h2
      omega

/-- The loop-safety invariant: if the index dominates four times the level
counter, every access of `collectLoop` stays in bounds. -/
theorem collectSafe_true (nodesLen rp io : Nat) :
    ∀ td idx, 4 * td ≤ idx + 2 → io + idx < nodesLen →
      collectSafe nodesLen rp io td idx = true := by
  intro td
  induction td using Nat.strong_induction_on with
  | _ td ih =>
    intro idx h1 h2
    rw [collectSafe]
    by_cases hd : 0 < td
    · rw [dif_pos hd]
      have hpc := popcount_pos td hd
      have hpcle := popcount_le td
      have hhalf : td >>> 1 = td / 2 := by
        rw [Nat.shiftRight_eq_div_pow, Nat.pow_one]
      have hrec : ∀ idx2, 4 * (td / 2) ≤ idx2 + 2 → io + idx2 < nodesLen →
          collectSafe nodesLen rp io (td >>> 1) idx2 = true := by
        intro idx2 ha hb
        apply ih (td >>> 1) (by rw [hhalf]; omega) idx2 (by rw [hhalf]; exact ha) hb
      simp only [Bool.and_eq_true, decide_eq_true_eq]
      refine ⟨⟨by rw [nodes_in_forest]; omega, by omega⟩, ?_⟩
      by_cases hbit : (rp &&& td) ≠ 0
      · rw [if_pos hbit]
        apply hrec
        · omega
        · omega
      · rw [if_neg hbit]
        apply hrec
        · rw [nodes_in_forest]
          omega
        · rw [nodes_in_forest]
          omega
    · rw [dif_neg hd]
      simp only [decide_eq_true_eq]
      omega

/-- On any reachable `Mmr`, `get`/`open` never perform an out-of-bounds
access or an underflowing subtraction. -/
theorem accessSafe_reachable (m : D → D → D) (L : List D) (pos : Nat) :
    accessSafe (mmrOfList m L) pos = true := by
  rw [mmrOfList_spec]
  rcases Nat.lt_or_ge pos L.length with h | h
  · obtain ⟨hsome, hbit, -⟩ := ltct_some pos L.length h
    simp only [accessSafe, hsome]
    have hN : (specForest m (bitsDesc L.length) L).length = L.length * 2 - popcount L.length := by
      rw [length_specForest, nodesSum_bitsDesc, nodes_in_forest]
    have hidx : nodes_in_forest (1 <<< Nat.log2 (L.length ^^^ L.length &&& pos)) - 1 =
        2 ^ (Nat.log2 (L.length ^^^ L.length &&& pos) + 1) - 2 := by
      rw [one_shiftLeft_eq, nodes_in_forest_two_pow]
      omega
    have hfb : high_bitmask_and (Nat.log2 (L.length ^^^ L.length &&& pos) + 1) L.length =
        L.length / 2 ^ (Nat.log2 (L.length ^^^ L.length &&& pos) + 1) *
          2 ^ (Nat.log2 (L.length ^^^ L.length &&& pos) + 1) := by
      rw [high_bitmask_and, Nat.shiftRight_eq_div_pow, Nat.shiftLeft_eq]
    rw [hidx, hfb]
    -- abbreviations for the bit position, quotient and remainder
    obtain ⟨b, hb⟩ : ∃ b, b = Nat.log2 (L.length ^^^ L.length &&& pos) := ⟨_, rfl⟩
    rw [← hb] at hbit ⊢
    have hdm := Nat.div_add_mod L.length (2 ^ (b + 1))
    have hcm : 2 ^ (b + 1) * (L.length / 2 ^ (b + 1)) =
        L.length / 2 ^ (b + 1) * 2 ^ (b + 1) := Nat.mul_comm _ _
    have hmodlt : L.length % 2 ^ (b + 1) < 2 ^ (b + 1) :=
      Nat.mod_lt _ (Nat.pos_pow_of_pos _ (by omega))
    have hsplitk : popcount L.length =
        popcount (L.length / 2 ^ (b + 1)) + popcount (L.length % 2 ^ (b + 1)) := by
      conv_lhs => rw [show L.length = L.length / 2 ^ (b + 1) * 2 ^ (b + 1) +
        L.length % 2 ^ (b + 1) from by omega]
      exact popcount_split (b + 1) _ _ hmodlt
    have hsplitq : popcount (L.length / 2 ^ (b + 1) * 2 ^ (b + 1)) =
        popcount (L.length / 2 ^ (b + 1)) := by
      have := popcount_split (b + 1) (L.length / 2 ^ (b + 1)) 0
        (Nat.pos_pow_of_pos _ (by omega))
      simpa [popcount_zero] using this
    -- the remainder has bit b set
    have hpow : 2 ^ (b + 1) = 2 * 2 ^ b := by rw [Nat.pow_succ']
    have hmodsucc : L.length % 2 ^ (b + 1) =
        L.length % 2 ^ b + 2 ^ b * (L.length / 2 ^ b % 2) := Nat.mod_pow_succ
    have hmodblt : L.length % 2 ^ b < 2 ^ b := Nat.mod_lt _ (Nat.pos_pow_of_pos _ (by omega))
    have hr : L.length % 2 ^ (b + 1) = 1 * 2 ^ b + L.length % 2 ^ b := by
      rw [hmodsucc, hbit]
      ring
    have hpcr : popcount (L.length % 2 ^ (b + 1)) =
        1 + popcount (L.length % 2 ^ b) := by
      rw [hr, popcount_split b 1 _ hmodblt, popcount_one]
    have hpcc := popcount_le (L.length % 2 ^ b)
    have hpcq := popcount_le (L.length / 2 ^ (b + 1))
    have hqle : L.length / 2 ^ (b + 1) ≤ L.length / 2 ^ (b + 1) * 2 ^ (b + 1) :=
      Nat.le_mul_of_pos_right _ (Nat.pos_pow_of_pos _ (by omega))
    -- entry bounds for the loop-safety invariant
    apply collectSafe_true
    · have h2b := two_mul_le_two_pow b
      omega
    · simp only [nodes_in_forest]
      rw [hN, hsplitq]
      omega
  · rw [accessSafe, ltct_none pos L.length h]

end Bounds

/-! ### Evaluation helpers for the concrete 8-leaf instance -/

section Eval

set_option maxRecDepth 4000

theorem get_eq {D : Type} [Inhabited D] (mmr : Mmr D) (pos tb : Nat)
    (h : leaf_to_corresponding_tree pos mmr.forest = some tb) :
    mmr.get pos = Except.ok (collect_merkle_path_and_value mmr.nodes tb
      (pos - high_bitmask_and (tb + 1) mmr.forest)
      (nodes_in_forest (high_bitmask_and (tb + 1) mmr.forest))
      (nodes_in_forest (1 <<< tb) - 1)).1 := by
  simp only [Mmr.get, h]

theorem open_eq {D : Type} [Inhabited D] (mmr : Mmr D) (pos tb : Nat)
    (h : leaf_to_corresponding_tree pos mmr.forest = some tb) :
    mmr.open pos = Except.ok
      { forest := mmr.forest, position := pos,
        merkle_path := (collect_merkle_path_and_value mmr.nodes tb
          (pos - high_bitmask_and (tb + 1) mmr.forest)
          (nodes_in_forest (high_bitmask_and (tb + 1) mmr.forest))
          (nodes_in_forest (1 <<< tb) - 1)).2 } := by
  simp only [Mmr.open, h]

theorem verify_eq {D : Type} [Inhabited D] [DecidableEq D] (m : D → D → D)
    (pk : MmrPeaks D) (value : D) (proof : MmrProof D) (tb : Nat)
    (h : leaf_to_corresponding_tree proof.position proof.forest = some tb) :
    MmrPeaks.verify m pk value proof =
      (decide (pk.num_leaves = proof.forest) &&
        decide (pk.peaks.getD ((bitsDesc proof.forest).indexOf tb) default =
          foldPath m (proof.position - high_bitmask_and (tb + 1) proof.forest)
            (maskSeq tb).reverse proof.merkle_path value)) := by
  simp only [MmrPeaks.verify, h]

theorem mmr8_eval : mmrOfList FreeD.node leaves8 = { forest := 8, nodes := nodes8 } := by
  rw [mmrOfList_spec]
  have hb : bitsDesc leaves8.length = [3] := by simp [leaves8, bitsDesc, bitsAsc]
  rw [hb]
  rfl

theorem mmr8_get0 : (mmrOfList FreeD.node leaves8).get 0 = Except.ok (FreeD.leaf 4) := by
  rw [mmr8_eval, get_eq _ 0 3 (by simp [leaf_to_corresponding_tree, Nat.log2])]
  have e1 : high_bitmask_and 4 8 = 0 := by
    simp [high_bitmask_and, Nat.shiftRight_eq_div_pow]
  have e2 : nodes_in_forest 0 = 0 := by simp [nodes_in_forest, popcount]
  have e3 : nodes_in_forest (1 <<< 3) = 15 := by
    rw [one_shiftLeft_eq]
    norm_num
    simp [nodes_in_forest, popcount]
  rw [e1, e2, e3]
  simp only [collect_merkle_path_and_value]
  rw [collectLoop]
  simp [Nat.shiftRight_eq_div_pow, nodes_in_forest, popcount]
  rw [collectLoop]
  simp [Nat.shiftRight_eq_div_pow, nodes_in_forest, popcount]
  rw [collectLoop]
  simp [nodes8]

theorem mmr8_open0 : (mmrOfList FreeD.node leaves8).open 0 = Except.ok badPath8 := by
  rw [mmr8_eval, open_eq _ 0 3 (by simp [leaf_to_corresponding_tree, Nat.log2])]
  have e1 : high_bitmask_and 4 8 = 0 := by
    simp [high_bitmask_and, Nat.shiftRight_eq_div_pow]
  have e2 : nodes_in_forest 0 = 0 := by simp [nodes_in_forest, popcount]
  have e3 : nodes_in_forest (1 <<< 3) = 15 := by
    rw [one_shiftLeft_eq]
    norm_num
    simp [nodes_in_forest, popcount]
  rw [e1, e2, e3]
  simp only [collect_merkle_path_and_value, badPath8]
  rw [collectLoop]
  simp [Nat.shiftRight_eq_div_pow, nodes_in_forest, popcount]
  rw [collectLoop]
  simp [Nat.shiftRight_eq_div_pow, nodes_in_forest, popcount]
  rw [collectLoop]
  simp [nodes8]

theorem mmr8_acc : (mmrOfList FreeD.node leaves8).accumulator =
    { num_leaves := 8, peaks := [nodes8.getD 14 default] } := by
  rw [mmr8_eval]
  simp only [Mmr.accumulator]
  have hb : bitsDesc 8 = [3] := by simp [bitsDesc, bitsAsc]
  rw [hb]
  have e4 : nodes_in_forest 8 = 15 := by simp [nodes_in_forest, popcount]
  simp [cumSums, e4]

theorem mmr8_verify_false :
    MmrPeaks.verify FreeD.node (mmrOfList FreeD.node leaves8).accumulator
      (FreeD.leaf 4) badPath8 = false := by
  rw [mmr8_acc, verify_eq FreeD.node _ _ _ 3
    (by simp [badPath8, leaf_to_corresponding_tree, Nat.log2])]
  have hm : maskSeq 3 = [3, 1] := by
    rw [maskSeq]
    norm_num [Nat.shiftRight_eq_div_pow]
    rw [maskSeq]
    norm_num [Nat.shiftRight_eq_div_pow]
    rw [maskSeq]
    norm_num
  have hb : bitsDesc 8 = [3] := by simp [bitsDesc, bitsAsc]
  have e1 : high_bitmask_and 4 8 = 0 := by
    simp [high_bitmask_and, Nat.shiftRight_eq_div_pow]
  simp only [badPath8, hm, hb, e1]
  simp [foldPath, nodes8]

theorem nodesSum_eq_map_sum (bs : List Nat) :
    nodesSum bs = (bs.map (fun b => 2 ^ (b + 1) - 1)).sum := by
  induction bs with
  | nil => simp [nodesSum]
  | cons b bs ih => simp [nodesSum, ih]

end Eval

/-! ### Simulation of the `MmrNodes` iterator -/

section IteratorSim

set_option maxRecDepth 4000

variable {D : Type} [Inhabited D]

/-- A leaf-pair step. -/
theorem next_leaf_step (mmr : Mmr D) (G i : Nat)
    (h2 : G % 2 = 0) (hlt : G < 2 * (mmr.forest / 2)) :
    mmrNodesNext mmr ⟨G, 0, i⟩ =
      some (⟨mmr.nodes.getD (i + 2) default, mmr.nodes.getD i default,
             mmr.nodes.getD (i + 1) default⟩,
        if G % 4 = 0 then ⟨G + 2, 0, i + 3⟩ else ⟨G, 2, i + 3⟩) := by
  have hor : G ||| 1 = G + 1 := by
    have h := or_two_pow_of_clear G 0 (by simpa using h2)
    simpa using h
  have hxor : (G + 1) ^^^ 1 = G := by
    have h := xor_two_pow_of_set (G + 1) 0 (by simp; omega)
    simpa using h
  have hnif : nodes_in_forest 1 = 1 := by simp [nodes_in_forest, popcount_one]
  rcases Nat.eq_zero_or_pos (G % 4) with h4 | h4
  · have ha : G &&& 2 = 0 := by
      have := (and_two_pow_eq_zero_iff G 1).mpr (by omega)
      simpa using this
    have hx2 : G ^^^ 2 = G + 2 := by
      have := xor_two_pow_of_clear G 1 (by omega)
      simpa using this
    rw [if_pos h4]
    simp only [mmrNodesNext]
    rw [if_pos hlt]
    simp [hor, hxor, hnif, ha, hx2]
  · have h42 : G % 4 = 2 := by omega
    have ha : G &&& 2 = 2 := by
      have h := and_two_pow_eq G 1
      simp only [pow_one] at h
      have hd : G / 2 % 2 = 1 := by omega
      rw [hd] at h
      simpa using h
    rw [if_neg (by omega)]
    simp only [mmrNodesNext]
    rw [if_pos hlt]
    simp [hor, hxor, hnif, ha]

/-- A merge step: the iterator just finished a right subtree of depth `e`. -/
theorem next_merge_step (mmr : Mmr D) (G i e : Nat)
    (hbit : G / 2 ^ e % 2 = 1) (hlt : G < 2 * (mmr.forest / 2)) :
    mmrNodesNext mmr ⟨G, 2 ^ e, i⟩ =
      some (⟨mmr.nodes.getD i default,
             mmr.nodes.getD (i - 1 - (2 ^ (e + 1) - 1)) default,
             mmr.nodes.getD (i - 1) default⟩,
        if (G - 2 ^ e) / 2 ^ (e + 1) % 2 = 0 then
          ⟨G - 2 ^ e + 2 ^ (e + 1), 0, i + 1⟩
        else ⟨G - 2 ^ e, 2 ^ (e + 1), i + 1⟩) := by
  have hpe : 0 < 2 ^ e := Nat.pos_pow_of_pos e (by omega)
  have hR : ¬((2 : Nat) ^ e = 0) := by omega
  have hnif : nodes_in_forest (2 ^ e) = 2 ^ (e + 1) - 1 := nodes_in_forest_two_pow e
  have hpar : (2 : Nat) ^ e <<< 1 = 2 ^ (e + 1) := by
    rw [Nat.shiftLeft_eq]
    ring
  have hxor : G ^^^ 2 ^ e = G - 2 ^ e := xor_two_pow_of_set G e hbit
  rcases Nat.eq_zero_or_pos ((G - 2 ^ e) / 2 ^ (e + 1) % 2) with hb | hb
  · have ha : (G - 2 ^ e) &&& 2 ^ (e + 1) = 0 := (and_two_pow_eq_zero_iff _ _).mpr hb
    have hx2 : (G - 2 ^ e) ^^^ 2 ^ (e + 1) = G - 2 ^ e + 2 ^ (e + 1) :=
      xor_two_pow_of_clear _ _ hb
    rw [if_pos hb]
    simp only [mmrNodesNext]
    rw [if_pos hlt]
    simp [hR, hpar, hxor, hnif, ha, hx2]
  · have hb1 : (G - 2 ^ e) / 2 ^ (e + 1) % 2 = 1 := by omega
    have ha : (G - 2 ^ e) &&& 2 ^ (e + 1) = 2 ^ (e + 1) := by
      have h := and_two_pow_eq (G - 2 ^ e) (e + 1)
      rw [hb1] at h
      simpa using h
    have hane : ¬((G - 2 ^ e) &&& 2 ^ (e + 1) = 0) := by
      rw [ha]
      have : 0 < 2 ^ (e + 1) := Nat.pos_pow_of_pos _ (by omega)
      omega
    rw [if_neg (by omega)]
    simp only [mmrNodesNext]
    rw [if_pos hlt]
    simp [hR, hpar, hxor, hnif, hane]

/-- The iterator's guard fails: the scratch forest has reached the target. -/
theorem next_done (mmr : Mmr D) (s : MmrNodesState)
    (h : ¬ s.forest < 2 * (mmr.forest / 2)) : mmrNodesNext mmr s = none := by
  simp only [mmrNodesNext]
  rw [if_neg h]

/-- Once `next` returns `none`, any amount of fuel yields nothing more. -/
theorem mmrNodesRun_none (mmr : Mmr D) (s : MmrNodesState)
    (h : mmrNodesNext mmr s = none) :
    ∀ fuel, mmrNodesRun mmr fuel s = ([], s) := by
  intro fuel
  cases fuel with
  | zero => rfl
  | succ n =>
    simp only [mmrNodesRun, h]

/-- Fuel composition: a full first run of `a` yields composes with the rest. -/
theorem mmrNodesRun_comp (mmr : Mmr D) :
    ∀ (a : Nat) (b : Nat) (s : MmrNodesState) (l : List (InnerNodeInfo D))
      (s' : MmrNodesState),
      mmrNodesRun mmr a s = (l, s') → l.length = a →
      mmrNodesRun mmr (a + b) s =
        (l ++ (mmrNodesRun mmr b s').1, (mmrNodesRun mmr b s').2) := by
  intro a
  induction a with
  | zero =>
    intro b s l s' hrun hlen
    have hl : l = [] := List.length_eq_zero.mp hlen
    subst hl
    simp only [mmrNodesRun] at hrun
    obtain ⟨rfl⟩ : s = s' := by
      have := congrArg Prod.snd hrun
      simpa using this
    simp
  | succ a ih =>
    intro b s l s' hrun hlen
    rcases hnext : mmrNodesNext mmr s with _ | ⟨x, t⟩
    · rw [mmrNodesRun, hnext] at hrun
      have : l = [] := by
        have := congrArg Prod.fst hrun
        simpa using this.symm
      subst this
      simp at hlen
    · rw [mmrNodesRun, hnext] at hrun
      have h1 : l = x :: (mmrNodesRun mmr a t).1 := by
        have := congrArg Prod.fst hrun
        simpa using this.symm
      have h2 : (mmrNodesRun mmr a t).2 = s' := by
        have := congrArg Prod.snd hrun
        simpa using this
      subst h1
      have hlen' : (mmrNodesRun mmr a t).1.length = a := by
        simpa using hlen
      have hz : a + 1 + b = (a + b) + 1 := by omega
      rw [hz]
      simp only [mmrNodesRun, hnext]
      rw [ih b t (mmrNodesRun mmr a t).1 s' (by rw [← h2]) hlen']
      simp

/-- Reading an element of the middle block of a three-part buffer. -/
theorem getD_middle (P L Q : List D) (j : Nat) (hj : j < L.length) :
    (P ++ L ++ Q).getD (P.length + j) default = L.getD j default := by
  rw [List.append_assoc]
  rw [List.getD_append_right _ _ _ _ (by omega)]
  rw [Nat.add_sub_cancel_left]
  rw [List.getD_append _ _ _ _ hj]

/-- Running one step of the iterator from a state whose `next` is known. -/
theorem mmrNodesRun_one (mmr : Mmr D) (s : MmrNodesState) (x : InnerNodeInfo D)
    (t : MmrNodesState) (h : mmrNodesNext mmr s = some (x, t)) :
    mmrNodesRun mmr 1 s = ([x], t) := by
  simp only [mmrNodesRun, h]

/-- Simulation of the iterator across one full tree block of depth `d + 1`:
starting with accumulated scratch forest `G` (a multiple of the tree's leaf
count) and cursor at the block's start, the iterator performs exactly
`2 ^ (d + 1) - 1` steps, yields the block's internal nodes in postorder,
moves the cursor past the block, and either adds the tree's bit to the
scratch forest (left flavour) or records it in `last_right` (right
flavour), depending on the next-higher bit of `G`. -/
theorem runTreeAux (m : D → D → D) (mmr : Mmr D) :
    ∀ (d G i : Nat) (P Q S : List D),
      mmr.nodes = P ++ potEnc m (d + 1) S ++ Q →
      P.length = i →
      G % 2 ^ (d + 1) = 0 →
      G + 2 ^ (d + 1) ≤ 2 * (mmr.forest / 2) →
      mmrNodesRun mmr (2 ^ (d + 1) - 1) ⟨G, 0, i⟩ =
        (innerPot m (d + 1) S,
          if G % 2 ^ (d + 2) = 0 then ⟨G + 2 ^ (d + 1), 0, i + 2 ^ (d + 2) - 1⟩
          else ⟨G, 2 ^ (d + 1), i + 2 ^ (d + 2) - 1⟩) := by
  intro d
  induction d with
  | zero =>
    intro G i P Q S hnodes hlen hmod hguard
    have h2' : G % 2 = 0 := by simpa using hmod
    have hlt : G < 2 * (mmr.forest / 2) := by
      have h1 : (0:Nat) < 2 ^ (0 + 1) := Nat.pos_pow_of_pos _ (by omega)
      omega
    have hstep := next_leaf_step mmr G i h2' hlt
    have hva : mmr.nodes.getD i default = merkleRoot m 0 (S.take 1) := by
      rw [hnodes, ← hlen]
      have h := getD_middle P (potEnc m (0 + 1) S) Q 0
        (by rw [length_potEnc]; norm_num)
      simpa [potEnc, merkleRoot] using h
    have hvb : mmr.nodes.getD (i + 1) default = merkleRoot m 0 (S.drop 1) := by
      rw [hnodes, ← hlen]
      have h := getD_middle P (potEnc m (0 + 1) S) Q 1
        (by rw [length_potEnc]; norm_num)
      simpa [potEnc, merkleRoot] using h
    have hvc : mmr.nodes.getD (i + 2) default = merkleRoot m (0 + 1) S := by
      rw [hnodes, ← hlen]
      have h := getD_middle P (potEnc m (0 + 1) S) Q 2
        (by rw [length_potEnc]; norm_num)
      simpa [potEnc] using h
    have hfuel : (2:Nat) ^ (0 + 1) - 1 = 1 := by norm_num
    rw [hfuel, mmrNodesRun_one mmr _ _ _ hstep, hva, hvb, hvc]
    have h4eq : G % 2 ^ (0 + 2) = G % 4 := by norm_num
    have hidx : i + 2 ^ (0 + 2) - 1 = i + 3 := by norm_num
    have hG2 : G + 2 ^ (0 + 1) = G + 2 := by norm_num
    have hpw : (2:Nat) ^ (0 + 1) = 2 := by norm_num
    rw [h4eq]
    rcases Nat.eq_zero_or_pos (G % 4) with h4 | h4
    · rw [if_pos h4, if_pos h4, hidx, hG2]
      simp [innerPot, merkleRoot]
    · rw [if_neg (by omega), if_neg (by omega), hidx, hpw]
      simp [innerPot, merkleRoot]
  | succ d ih =>
    intro G i P Q S hnodes hlen hmod hguard
    have hnorm1 : d + 1 + 1 = d + 2 := by omega
    have hnorm2 : d + 1 + 2 = d + 3 := by omega
    rw [hnorm1] at hnodes hmod hguard
    rw [hnorm1, hnorm2]
    have e0 : (2:Nat) ^ (d + 1 + 1) = 2 ^ (d + 2) := by ring
    have e1 : (2:Nat) ^ (d + 2) = 2 * 2 ^ (d + 1) := by ring
    have e2 : (2:Nat) ^ (d + 3) = 2 ^ (d + 2) * 2 := by ring
    have e4 : (2:Nat) ^ (d + 2 + 1) = 2 ^ (d + 3) := by ring
    have ep1 : 0 < (2:Nat) ^ (d + 1) := Nat.pos_pow_of_pos _ (by omega)
    have ep2 : 0 < (2:Nat) ^ (d + 2) := Nat.pos_pow_of_pos _ (by omega)
    have hsplit : potEnc m (d + 2) S =
        potEnc m (d + 1) (S.take (2 ^ (d + 1))) ++
          potEnc m (d + 1) (S.drop (2 ^ (d + 1))) ++ [merkleRoot m (d + 2) S] := rfl
    have hmod1 : G % 2 ^ (d + 1) = 0 := by
      have hdvd : (2:Nat) ^ (d + 1) ∣ 2 ^ (d + 2) := pow_dvd_pow 2 (by omega)
      have h := Nat.mod_mod_of_dvd G hdvd
      rw [hmod] at h
      simpa using h.symm
    obtain ⟨q, hq⟩ := Nat.dvd_of_mod_eq_zero hmod
    have hnodes1 : mmr.nodes = P ++ potEnc m (d + 1) (S.take (2 ^ (d + 1))) ++
        (potEnc m (d + 1) (S.drop (2 ^ (d + 1))) ++ ([merkleRoot m (d + 2) S] ++ Q)) := by
      rw [hnodes, hsplit]
      simp
    have r1 := ih G i P _ (S.take (2 ^ (d + 1))) hnodes1 hlen hmod1 (by omega)
    rw [if_pos hmod] at r1
    have hlen2 : (P ++ potEnc m (d + 1) (S.take (2 ^ (d + 1)))).length =
        i + 2 ^ (d + 2) - 1 := by
      rw [List.length_append, length_potEnc, hlen]
      omega
    have hnodes2 : mmr.nodes = (P ++ potEnc m (d + 1) (S.take (2 ^ (d + 1)))) ++
        potEnc m (d + 1) (S.drop (2 ^ (d + 1))) ++ ([merkleRoot m (d + 2) S] ++ Q) := by
      rw [hnodes, hsplit]
      simp
    have hmod2 : (G + 2 ^ (d + 1)) % 2 ^ (d + 1) = 0 := by
      rw [Nat.add_mod, hmod1]
      simp
    have r2 := ih (G + 2 ^ (d + 1)) (i + 2 ^ (d + 2) - 1)
      (P ++ potEnc m (d + 1) (S.take (2 ^ (d + 1)))) _ (S.drop (2 ^ (d + 1)))
      hnodes2 hlen2 hmod2 (by omega)
    have flavor2 : ¬ ((G + 2 ^ (d + 1)) % 2 ^ (d + 2) = 0) := by
      have h : (G + 2 ^ (d + 1)) % 2 ^ (d + 2) = 2 ^ (d + 1) := by
        rw [hq, Nat.add_comm, Nat.add_mul_mod_self_left]
        exact Nat.mod_eq_of_lt (by omega)
      omega
    rw [if_neg flavor2] at r2
    have hbit : (G + 2 ^ (d + 1)) / 2 ^ (d + 1) % 2 = 1 := by
      have h1 : G + 2 ^ (d + 1) = 2 ^ (d + 1) * (2 * q + 1) := by
        rw [hq, e1]
        ring
      rw [h1, Nat.mul_div_cancel_left _ ep1]
      omega
    have hmerge := next_merge_step mmr (G + 2 ^ (d + 1))
      ((i + 2 ^ (d + 2) - 1) + 2 ^ (d + 2) - 1) (d + 1) hbit (by omega)
    rw [e0, Nat.add_sub_cancel] at hmerge
    have hvv : mmr.nodes.getD ((i + 2 ^ (d + 2) - 1) + 2 ^ (d + 2) - 1) default =
        merkleRoot m (d + 2) S := by
      rw [hnodes]
      exact getD_potEnc_root m P Q (d + 2) S _ (by rw [hlen]; omega)
    have hvr : mmr.nodes.getD ((i + 2 ^ (d + 2) - 1) + 2 ^ (d + 2) - 1 - 1) default =
        merkleRoot m (d + 1) (S.drop (2 ^ (d + 1))) := by
      rw [hnodes2]
      exact getD_potEnc_root m (P ++ potEnc m (d + 1) (S.take (2 ^ (d + 1))))
        ([merkleRoot m (d + 2) S] ++ Q) (d + 1) (S.drop (2 ^ (d + 1))) _
        (by rw [hlen2]; omega)
    have hvl : mmr.nodes.getD
        ((i + 2 ^ (d + 2) - 1) + 2 ^ (d + 2) - 1 - 1 - (2 ^ (d + 2) - 1)) default =
        merkleRoot m (d + 1) (S.take (2 ^ (d + 1))) := by
      rw [hnodes1]
      exact getD_potEnc_root m P
        (potEnc m (d + 1) (S.drop (2 ^ (d + 1))) ++ ([merkleRoot m (d + 2) S] ++ Q))
        (d + 1) (S.take (2 ^ (d + 1))) _ (by rw [hlen]; omega)
    rw [hvv, hvr, hvl] at hmerge
    have hfuel : 2 ^ (d + 2) - 1 = (2 ^ (d + 1) - 1) + ((2 ^ (d + 1) - 1) + 1) := by
      omega
    rw [hfuel]
    rw [mmrNodesRun_comp mmr (2 ^ (d + 1) - 1) ((2 ^ (d + 1) - 1) + 1) _ _ _ r1
      (by rw [length_innerPot])]
    rw [mmrNodesRun_comp mmr (2 ^ (d + 1) - 1) 1 _ _ _ r2 (by rw [length_innerPot])]
    rw [mmrNodesRun_one mmr _ _ _ hmerge]
    have hinner : innerPot m (d + 2) S =
        innerPot m (d + 1) (S.take (2 ^ (d + 1))) ++
          innerPot m (d + 1) (S.drop (2 ^ (d + 1))) ++
          [⟨merkleRoot m (d + 2) S, merkleRoot m (d + 1) (S.take (2 ^ (d + 1))),
            merkleRoot m (d + 1) (S.drop (2 ^ (d + 1)))⟩] := rfl
    have hdivq : G / 2 ^ (d + 2) = q := by
      rw [hq, Nat.mul_div_cancel_left _ ep2]
    have hm3 : G % 2 ^ (d + 3) = 2 ^ (d + 2) * (q % 2) := by
      rw [hq, e2, Nat.mul_mod_mul_left]
    have hidx : (i + 2 ^ (d + 2) - 1) + 2 ^ (d + 2) - 1 + 1 = i + 2 ^ (d + 3) - 1 := by
      omega
    rcases Nat.mod_two_eq_zero_or_one q with hb | hb
    · rw [if_pos (by rw [hdivq, hb]), if_pos (by rw [hm3, hb]; simp), hidx]
      simp [hinner]
    · rw [if_neg (by rw [hdivq, hb]; omega),
        if_neg (by rw [hm3, hb]; simp), hidx]
      simp [hinner]

/-- Each depth contributes at least one leaf. -/
theorem length_le_sumPow (bs : List Nat) : bs.length ≤ sumPow bs := by
  induction bs with
  | nil => simp [sumPow]
  | cons b bs ih =>
    have h : 1 ≤ 2 ^ b := Nat.one_le_two_pow
    simp only [List.length_cons, sumPow]
    omega

/-- Simulation of the iterator across a forest of tree blocks with strictly
descending positive depths: all the trees are processed left flavour, one
after the other. -/
theorem runForest (m : D → D → D) (mmr : Mmr D) :
    ∀ (bs : List Nat) (G i : Nat) (P Q : List D) (T : List D),
      mmr.nodes = P ++ specForest m bs T ++ Q →
      P.length = i →
      (∀ b ∈ bs, 0 < b) →
      List.Pairwise (· > ·) bs →
      (∀ b ∈ bs, G % 2 ^ (b + 1) = 0) →
      G + sumPow bs ≤ 2 * (mmr.forest / 2) →
      mmrNodesRun mmr (sumPow bs - bs.length) ⟨G, 0, i⟩ =
        (specInner m bs T, ⟨G + sumPow bs, 0, i + nodesSum bs⟩) := by
  intro bs
  induction bs with
  | nil =>
    intro G i P Q T hnodes hlen hpos hpair hmods hguard
    simp [sumPow, nodesSum, specInner, mmrNodesRun]
  | cons b bs' ih =>
    intro G i P Q T hnodes hlen hpos hpair hmods hguard
    have hbpos : 0 < b := hpos b (by simp)
    cases b with
    | zero => omega
    | succ e =>
    have hmodhead : G % 2 ^ (e + 1 + 1) = 0 := hmods (e + 1) (by simp)
    have hm2 : G % 2 ^ (e + 2) = 0 := by
      rw [show e + 2 = e + 1 + 1 by omega]
      exact hmodhead
    have hpe1 : 0 < (2:Nat) ^ (e + 1) := Nat.pos_pow_of_pos _ (by omega)
    have hpe2 : 0 < (2:Nat) ^ (e + 2) := Nat.pos_pow_of_pos _ (by omega)
    have he0 : (2:Nat) ^ (e + 1 + 1) = 2 ^ (e + 2) := by ring
    have hspecs : specForest m ((e + 1) :: bs') T =
        potEnc m (e + 1) (T.take (2 ^ (e + 1))) ++
          specForest m bs' (T.drop (2 ^ (e + 1))) := rfl
    have hsum : sumPow ((e + 1) :: bs') = 2 ^ (e + 1) + sumPow bs' := rfl
    have hnodes1 : mmr.nodes = P ++ potEnc m (e + 1) (T.take (2 ^ (e + 1))) ++
        (specForest m bs' (T.drop (2 ^ (e + 1))) ++ Q) := by
      rw [hnodes, hspecs]
      simp
    have hmod1 : G % 2 ^ (e + 1) = 0 := by
      have hdvd : (2:Nat) ^ (e + 1) ∣ 2 ^ (e + 2) := pow_dvd_pow 2 (by omega)
      have h := Nat.mod_mod_of_dvd G hdvd
      rw [hm2] at h
      simpa using h.symm
    have hguard1 : G + 2 ^ (e + 1) ≤ 2 * (mmr.forest / 2) := by
      rw [hsum] at hguard
      omega
    have r1 := runTreeAux m mmr e G i P _ (T.take (2 ^ (e + 1)))
      hnodes1 hlen hmod1 hguard1
    rw [if_pos hm2] at r1
    have hlen2 : (P ++ potEnc m (e + 1) (T.take (2 ^ (e + 1)))).length =
        i + 2 ^ (e + 2) - 1 := by
      rw [List.length_append, length_potEnc, hlen]
      omega
    have hnodes2 : mmr.nodes = (P ++ potEnc m (e + 1) (T.take (2 ^ (e + 1)))) ++
        specForest m bs' (T.drop (2 ^ (e + 1))) ++ Q := by
      rw [hnodes, hspecs]
      simp
    have hpair' := List.pairwise_cons.mp hpair
    have hmods2 : ∀ b' ∈ bs', (G + 2 ^ (e + 1)) % 2 ^ (b' + 1) = 0 := by
      intro b' hb'
      have h1 : G % 2 ^ (b' + 1) = 0 := hmods b' (by simp [hb'])
      have hlt : b' < e + 1 := hpair'.1 b' hb'
      obtain ⟨c, hc⟩ := pow_dvd_pow 2 (show b' + 1 ≤ e + 1 by omega)
      rw [Nat.add_mod, h1, hc, Nat.mul_mod_right]
      simp
    have hguard2 : (G + 2 ^ (e + 1)) + sumPow bs' ≤ 2 * (mmr.forest / 2) := by
      rw [hsum] at hguard
      omega
    have r2 := ih (G + 2 ^ (e + 1)) (i + 2 ^ (e + 2) - 1)
      (P ++ potEnc m (e + 1) (T.take (2 ^ (e + 1)))) Q (T.drop (2 ^ (e + 1)))
      hnodes2 hlen2 (fun b hb => hpos b (by simp [hb])) hpair'.2 hmods2 hguard2
    have hlb : bs'.length ≤ sumPow bs' := length_le_sumPow bs'
    have hfuel : sumPow ((e + 1) :: bs') - ((e + 1) :: bs').length =
        (2 ^ (e + 1) - 1) + (sumPow bs' - bs'.length) := by
      rw [hsum]
      simp only [List.length_cons]
      omega
    rw [hfuel]
    rw [mmrNodesRun_comp mmr (2 ^ (e + 1) - 1) (sumPow bs' - bs'.length) _ _ _ r1
      (by rw [length_innerPot])]
    rw [r2]
    have hspecI : specInner m ((e + 1) :: bs') T =
        innerPot m (e + 1) (T.take (2 ^ (e + 1))) ++
          specInner m bs' (T.drop (2 ^ (e + 1))) := rfl
    have hns : nodesSum ((e + 1) :: bs') = (2 ^ (e + 1 + 1) - 1) + nodesSum bs' := rfl
    rw [hspecI, hsum, hns]
    have hidx : (i + 2 ^ (e + 2) - 1) + nodesSum bs' =
        i + ((2 ^ (e + 1 + 1) - 1) + nodesSum bs') := by
      omega
    have hG : G + 2 ^ (e + 1) + sumPow bs' = G + (2 ^ (e + 1) + sumPow bs') := by omega
    simp [hidx, hG]

/-- One step of the binary popcount recursion, for every argument. -/
theorem popcount_div2 (k : Nat) : popcount k = popcount (k / 2) + k % 2 := by
  rcases Nat.eq_zero_or_pos k with h | h
  · subst h
    simp [popcount]
  · rw [popcount]
    rw [if_neg (by omega)]

/-- Inner-node count of the forest, in additive form. -/
theorem length_specInner (m : D → D → D) (bs : List Nat) (L : List D) :
    (specInner m bs L).length + bs.length = sumPow bs := by
  induction bs generalizing L with
  | nil => simp [specInner, sumPow]
  | cons b bs ih =>
    have h := ih (L.drop (2 ^ b))
    have h1 : 1 ≤ (2:Nat) ^ b := Nat.one_le_two_pow
    simp only [specInner, sumPow, List.length_append, List.length_cons,
      length_innerPot]
    omega

/-- The set-bit indices are produced in strictly ascending order. -/
theorem bitsAsc_pairwise (n : Nat) : (bitsAsc n).Pairwise (· < ·) := by
  induction n using Nat.strong_induction_on with
  | _ n ih =>
    rcases Nat.eq_zero_or_pos n with h | h
    · subst h
      simp [bitsAsc_zero]
    · rw [bitsAsc]
      rw [if_neg (by omega)]
      have hrec := ih (n / 2) (Nat.div_lt_self h (by omega))
      have hmap : ((bitsAsc (n / 2)).map (· + 1)).Pairwise (· < ·) := by
        rw [List.pairwise_map]
        exact hrec.imp (by omega)
      rcases Nat.eq_zero_or_pos (n % 2) with h2 | h2
      · rw [if_neg (by omega)]
        simpa using hmap
      · rw [if_pos (by omega)]
        rw [List.pairwise_append]
        refine ⟨by simp, hmap, ?_⟩
        intro a ha b hb
        simp at ha
        subst ha
        simp at hb
        obtain ⟨c, hc1, hc2⟩ := hb
        omega

/-- The `MmrNodes` iterator on a reachable `Mmr`, driven for exactly
`k - popcount k` steps from the initial state, yields the internal nodes
of every tree of the forest in order, and stops with the scratch forest at
the target value (the forest with its lowest single-leaf bit cleared). -/
theorem mmrNodes_spec (m : D → D → D) (L : List D) :
    mmrNodesRun (mmrOfList m L) (L.length - popcount L.length) innerNodesInit =
      (specInner m (bitsDesc L.length) L,
        ⟨2 * (L.length / 2), 0,
          nodesSum (((bitsAsc (L.length / 2)).map (· + 1)).reverse)⟩) := by
  have hmm := mmrOfList_spec m L
  have hsumPos : sumPow (((bitsAsc (L.length / 2)).map (· + 1)).reverse) =
      2 * (L.length / 2) := by
    rw [sumPow_reverse, sumPow_map_add_one, sumPow_bitsAsc]
  have hlenPos : (((bitsAsc (L.length / 2)).map (· + 1)).reverse).length =
      popcount (L.length / 2) := by
    simp [length_bitsAsc]
  have hsplitBits : bitsDesc L.length =
      ((bitsAsc (L.length / 2)).map (· + 1)).reverse ++
        (if L.length % 2 = 1 then [0] else []) := by
    rcases Nat.eq_zero_or_pos L.length with h | h
    · rw [h]
      simp [bitsDesc, bitsAsc_zero]
    · rw [bitsDesc, bitsAsc, if_neg (by omega)]
      rcases Nat.eq_zero_or_pos (L.length % 2) with h2 | h2
      · rw [if_neg (by omega)]
        simp
      · rw [if_pos (by omega)]
        simp
  have hlows : specInner m (if L.length % 2 = 1 then [0] else [])
      (L.drop (sumPow (((bitsAsc (L.length / 2)).map (· + 1)).reverse))) = [] := by
    rcases Nat.eq_zero_or_pos (L.length % 2) with h2 | h2
    · rw [if_neg (by omega)]
      simp [specInner]
    · rw [if_pos (by omega)]
      simp [specInner, innerPot]
  have hforest : (mmrOfList m L).forest = L.length := by rw [hmm]
  have hnodes : (mmrOfList m L).nodes = [] ++
      specForest m (((bitsAsc (L.length / 2)).map (· + 1)).reverse)
        (L.take (sumPow (((bitsAsc (L.length / 2)).map (· + 1)).reverse))) ++
      specForest m (if L.length % 2 = 1 then [0] else [])
        (L.drop (sumPow (((bitsAsc (L.length / 2)).map (· + 1)).reverse))) := by
    rw [hmm]
    show specForest m (bitsDesc L.length) L = _
    rw [hsplitBits, specForest_append]
    simp
  have hpos : ∀ b ∈ ((bitsAsc (L.length / 2)).map (· + 1)).reverse, 0 < b := by
    intro b hb
    simp at hb
    obtain ⟨c, hc1, hc2⟩ := hb
    omega
  have hpair : (((bitsAsc (L.length / 2)).map (· + 1)).reverse).Pairwise (· > ·) := by
    rw [List.pairwise_reverse]
    rw [List.pairwise_map]
    exact (bitsAsc_pairwise (L.length / 2)).imp (by omega)
  have hmods : ∀ b ∈ ((bitsAsc (L.length / 2)).map (· + 1)).reverse,
      (0 : Nat) % 2 ^ (b + 1) = 0 := by
    intro b hb
    simp
  have hguard : 0 + sumPow (((bitsAsc (L.length / 2)).map (· + 1)).reverse) ≤
      2 * ((mmrOfList m L).forest / 2) := by
    rw [hforest, hsumPos]
    omega
  have hrun := runForest m (mmrOfList m L)
    (((bitsAsc (L.length / 2)).map (· + 1)).reverse) 0 0 [] _ _
    hnodes rfl hpos hpair hmods hguard
  have hfuel : L.length - popcount L.length =
      sumPow (((bitsAsc (L.length / 2)).map (· + 1)).reverse) -
        (((bitsAsc (L.length / 2)).map (· + 1)).reverse).length := by
    rw [hsumPos, hlenPos]
    have h1 := popcount_div2 L.length
    have h2 := popcount_le (L.length / 2)
    omega
  have hinner : specInner m (bitsDesc L.length) L =
      specInner m (((bitsAsc (L.length / 2)).map (· + 1)).reverse)
        (L.take (sumPow (((bitsAsc (L.length / 2)).map (· + 1)).reverse))) := by
    rw [hsplitBits, specInner_append, hlows]
    simp
  rw [hfuel]
  show mmrNodesRun (mmrOfList m L) _ ⟨0, 0, 0⟩ = _
  rw [hrun, hinner]
  simp [hsumPos]

end IteratorSim

/-! ### Claim theorems -/

section Claims

set_option maxRecDepth 4000

/-- C1: the round-trip property `MmrPeaks::verify(get(position), open(position))
== true` fails on the code at the failing input of 8 appended leaves and
position 0: `get 0` returns the 5th leaf, `open 0` returns a length-2 path
whose entries are not the siblings of position 0, and folding that path
against the opened value does not reproduce the stored peak, so `verify`
returns `false`. -/
theorem claim_C1_roundtrip_fails_at_8 :
    (mmrOfList FreeD.node leaves8).get 0 = Except.ok (FreeD.leaf 4) ∧
    (mmrOfList FreeD.node leaves8).open 0 = Except.ok badPath8 ∧
    MmrPeaks.verify FreeD.node (mmrOfList FreeD.node leaves8).accumulator
      (FreeD.leaf 4) badPath8 = false :=
  ⟨mmr8_get0, mmr8_open0, mmr8_verify_false⟩

/-- C2: `get` does not always return the digest appended at the requested
position: at the failing input (8 appended leaves `d0..d7`, position 0) it
returns `d4`, the digest appended at position 4, instead of `d0`. -/
theorem claim_C2_get_wrong_value_at_8 :
    (mmrOfList FreeD.node leaves8).get 0 = Except.ok (FreeD.leaf 4) ∧
    leaves8.getD 0 default = FreeD.leaf 0 ∧
    FreeD.leaf 4 ≠ FreeD.leaf 0 :=
  ⟨mmr8_get0, rfl, by decide⟩

/-- C3: `open`'s path is not one sibling per level of the owning tree: at 8
leaves, position 0, the owning tree has bit index (depth) 3, but the
returned `merkle_path` has only 2 entries (the proof does carry the right
`forest` and `position` fields). -/
theorem claim_C3_path_length_wrong_at_8 :
    (mmrOfList FreeD.node leaves8).open 0 = Except.ok badPath8 ∧
    leaf_to_corresponding_tree 0 (mmrOfList FreeD.node leaves8).forest = some 3 ∧
    badPath8.forest = 8 ∧ badPath8.position = 0 ∧
    badPath8.merkle_path.length = 2 ∧ (2 : Nat) ≠ 3 := by
  refine ⟨mmr8_open0, ?_, rfl, rfl, rfl, by omega⟩
  rw [mmr8_eval]
  simp [leaf_to_corresponding_tree, Nat.log2]

/-- C4: after any sequence of appends the buffer is the concatenation, over
the set bits of the forest value from highest to lowest, of the postorder
encodings of perfect Merkle trees over the consecutive leaf blocks
(`specForest` over `bitsDesc`, where `potEnc` makes every internal node the
`merge` of its two children); and `add` only appends, leaving every
existing buffer entry unchanged. -/
theorem claim_C4_buffer_shape {D : Type} [Inhabited D] (m : D → D → D)
    (L : List D) (mmr : Mmr D) (x : D) :
    (mmrOfList m L).nodes = specForest m (bitsDesc L.length) L ∧
    ∃ s, (Mmr.add m mmr x).nodes = mmr.nodes ++ s := by
  constructor
  · rw [mmrOfList_spec]
  · simp only [Mmr.add]
    obtain ⟨s, hs⟩ := addCascade_append m mmr.forest 0 (mmr.nodes ++ [x])
      ((mmr.nodes ++ [x]).length - 2) x
    exact ⟨[x] ++ s, by rw [hs, List.append_assoc]⟩

/-- C5: after `k` appends the forest value is `k` and the buffer length is
`nodes_in_forest k = 2*k - popcount k`, which equals the sum of
`2^(b+1) - 1` over the set bits `b` of `k`. -/
theorem claim_C5_forest_and_length {D : Type} [Inhabited D] (m : D → D → D) (L : List D) :
    (mmrOfList m L).forest = L.length ∧
    (mmrOfList m L).nodes.length = nodes_in_forest L.length ∧
    nodes_in_forest L.length = 2 * L.length - popcount L.length ∧
    nodes_in_forest L.length =
      ((bitsAsc L.length).map (fun b => 2 ^ (b + 1) - 1)).sum := by
  refine ⟨by rw [mmrOfList_spec], ?_, ?_, ?_⟩
  · rw [mmrOfList_spec]
    show (specForest m (bitsDesc L.length) L).length = _
    rw [length_specForest, nodesSum_bitsDesc]
  · rw [nodes_in_forest, Nat.mul_comm]
  · rw [← nodesSum_eq_map_sum, ← nodesSum_bitsDesc, bitsDesc, nodesSum_reverse]

/-- C6: the deterministic 7-leaf example: forest `0b111`, buffer length 11,
peaks `[merge(merge(d0,d1),merge(d2,d3)), merge(d4,d5), d6]`,
`open 0` path `[d1, merge d2 d3]`, and `open 6` the empty path. -/
theorem claim_C6_seven_leaf_example {D : Type} [Inhabited D] (m : D → D → D)
    (d0 d1 d2 d3 d4 d5 d6 : D) :
    (mmrOfList m [d0, d1, d2, d3, d4, d5, d6]).forest = 7 ∧
    (mmrOfList m [d0, d1, d2, d3, d4, d5, d6]).nodes.length = 11 ∧
    (mmrOfList m [d0, d1, d2, d3, d4, d5, d6]).accumulator.peaks =
      [m (m d0 d1) (m d2 d3), m d4 d5, d6] ∧
    (mmrOfList m [d0, d1, d2, d3, d4, d5, d6]).open 0 =
      Except.ok { forest := 7, position := 0, merkle_path := [d1, m d2 d3] } ∧
    (mmrOfList m [d0, d1, d2, d3, d4, d5, d6]).open 6 =
      Except.ok { forest := 7, position := 6, merkle_path := [] } := by
  have hb : bitsDesc 7 = [2, 1, 0] := by
    simp [bitsDesc, bitsAsc]
  have hmm := mmrOfList_spec m [d0, d1, d2, d3, d4, d5, d6]
  have hmm' : mmrOfList m [d0, d1, d2, d3, d4, d5, d6] =
      ⟨7, [d0, d1, m d0 d1, d2, d3, m d2 d3, m (m d0 d1) (m d2 d3),
           d4, d5, m d4 d5, d6]⟩ := by
    rw [hmm]
    show Mmr.mk 7 (specForest m (bitsDesc 7) [d0, d1, d2, d3, d4, d5, d6]) = _
    rw [hb]
    rfl
  refine ⟨by rw [hmm'], by rw [hmm']; rfl, ?_, ?_, ?_⟩
  · rw [hmm']
    simp only [Mmr.accumulator]
    rw [hb]
    have e4 : nodes_in_forest (1 <<< 2) = 7 := by
      rw [one_shiftLeft_eq]
      norm_num
      simp [nodes_in_forest, popcount]
    have e5 : nodes_in_forest (1 <<< 1) = 3 := by
      rw [one_shiftLeft_eq]
      norm_num
      simp [nodes_in_forest, popcount]
    have e6 : nodes_in_forest (1 <<< 0) = 1 := by
      rw [one_shiftLeft_eq]
      norm_num
      simp [nodes_in_forest, popcount]
    simp only [List.map_cons, List.map_nil, e4, e5, e6]
    simp [cumSums]
  · rw [hmm', open_eq _ 0 2 (by simp [leaf_to_corresponding_tree, Nat.log2])]
    have e1 : high_bitmask_and 3 7 = 0 := by
      simp [high_bitmask_and, Nat.shiftRight_eq_div_pow]
    have e2 : nodes_in_forest 0 = 0 := by simp [nodes_in_forest, popcount]
    have e3 : nodes_in_forest (1 <<< 2) = 7 := by
      rw [one_shiftLeft_eq]
      norm_num
      simp [nodes_in_forest, popcount]
    rw [e1, e2, e3]
    simp only [collect_merkle_path_and_value]
    rw [collectLoop]
    simp [Nat.shiftRight_eq_div_pow, nodes_in_forest, popcount]
    rw [collectLoop]
    simp [Nat.shiftRight_eq_div_pow, nodes_in_forest, popcount]
    rw [collectLoop]
    simp
  · have hand : (7 : Nat) &&& 6 = 6 := by decide
    have hxor : (7 : Nat) ^^^ 6 = 1 := by decide
    rw [hmm', open_eq _ 6 0
      (by simp only [leaf_to_corresponding_tree, hand, hxor]; simp [Nat.log2])]
    rw [collect_merkle_path_and_value]
    rw [collectLoop]
    simp

/-- C7: for every reachable `Mmr` (including the empty one), `accumulator`
returns `num_leaves` equal to the forest value and exactly `popcount k`
peaks, which are the roots of the trees in highest-to-lowest order. -/
theorem claim_C7_accumulator {D : Type} [Inhabited D] (m : D → D → D) (L : List D) :
    (mmrOfList m L).accumulator.num_leaves = L.length ∧
    (mmrOfList m L).accumulator.peaks = specPeaks m (bitsDesc L.length) L ∧
    (mmrOfList m L).accumulator.peaks.length = popcount L.length := by
  have h := mmrOfList_spec m L
  have hacc := accumulator_spec m L.length L
  rw [h, hacc]
  refine ⟨rfl, rfl, ?_⟩
  show (specPeaks m (bitsDesc L.length) L).length = _
  rw [length_specPeaks, bitsDesc, List.length_reverse, length_bitsAsc]

/-- C8: on every reachable `Mmr`, `get` and `open` return the typed
`InvalidPosition pos` error exactly when `pos ≥ forest()` and an `Ok`
value otherwise; and every internal buffer access they make is in bounds
(`accessSafe`), so they cannot panic.  (In this embedding `get`/`open` are
pure functions of the `Mmr`, so they cannot mutate it.) -/
theorem claim_C8_errors {D : Type} [Inhabited D] (m : D → D → D) (L : List D) (pos : Nat) :
    (L.length ≤ pos →
      (mmrOfList m L).get pos = Except.error (MmrError.InvalidPosition pos) ∧
      (mmrOfList m L).open pos = Except.error (MmrError.InvalidPosition pos)) ∧
    (pos < L.length →
      ((mmrOfList m L).get pos).isOk = true ∧
      ((mmrOfList m L).open pos).isOk = true) ∧
    accessSafe (mmrOfList m L) pos = true := by
  have hf : (mmrOfList m L).forest = L.length := by rw [mmrOfList_spec]
  refine ⟨fun h => ⟨get_error _ _ (by omega), open_error _ _ (by omega)⟩,
    fun h => ⟨get_isOk _ _ (by omega), open_isOk _ _ (by omega)⟩,
    accessSafe_reachable m L pos⟩

theorem claim_C8_errors_witness :
    (mmrOfList FreeD.node [FreeD.leaf 0]).get 1 =
        Except.error (MmrError.InvalidPosition 1) ∧
      ((mmrOfList FreeD.node [FreeD.leaf 0]).get 0).isOk = true :=
  ⟨((claim_C8_errors FreeD.node [FreeD.leaf 0] 1).1 (by decide)).1,
   ((claim_C8_errors FreeD.node [FreeD.leaf 0] 0).2.1 (by decide)).1⟩

/-- C9: `leaf_to_corresponding_tree p f` returns a bit index `b` with bit
`b` set in `f` whenever `p < f` (and the internal `f XOR (f AND p)` is
then nonzero, so its `ilog2` is well defined), and `none` when `p ≥ f`. -/
theorem claim_C9_tree_lookup (p f : Nat) :
    (p < f → ∃ b, leaf_to_corresponding_tree p f = some b ∧
      f.testBit b = true ∧ f ^^^ f &&& p ≠ 0) ∧
    (f ≤ p → leaf_to_corresponding_tree p f = none) := by
  constructor
  · intro h
    obtain ⟨h1, h2, h3⟩ := ltct_some p f h
    refine ⟨_, h1, ?_, h3⟩
    rw [Nat.testBit_to_div_mod]
    exact decide_eq_true h2
  · intro h
    exact ltct_none p f h

theorem claim_C9_tree_lookup_witness :
    (∃ b, leaf_to_corresponding_tree 2 7 = some b ∧
      (7 : Nat).testBit b = true ∧ (7 : Nat) ^^^ 7 &&& 2 ≠ 0) ∧
    leaf_to_corresponding_tree 7 7 = none :=
  ⟨(claim_C9_tree_lookup 2 7).1 (by omega), (claim_C9_tree_lookup 7 7).2 (by omega)⟩

/-- C10: on an `Mmr` built by `k` appends, the `inner_nodes` iterator yields
exactly `k - popcount k` records — the internal nodes of the forest's trees
in order, each exactly once — every record satisfying
`value = merge(left, right)` for the node's two children, and after the
last record the iterator returns `None` forever. -/
theorem claim_C10_inner_nodes {D : Type} [Inhabited D] (m : D → D → D) (L : List D) :
    (mmrNodesRun (mmrOfList m L) (L.length - popcount L.length) innerNodesInit).1 =
      specInner m (bitsDesc L.length) L ∧
    (mmrNodesRun (mmrOfList m L) (L.length - popcount L.length)
        innerNodesInit).1.length = L.length - popcount L.length ∧
    (∀ info ∈ (mmrNodesRun (mmrOfList m L) (L.length - popcount L.length)
        innerNodesInit).1, info.value = m info.left info.right) ∧
    mmrNodesNext (mmrOfList m L)
      (mmrNodesRun (mmrOfList m L) (L.length - popcount L.length)
        innerNodesInit).2 = none ∧
    ∀ fuel, mmrNodesRun (mmrOfList m L) fuel
        (mmrNodesRun (mmrOfList m L) (L.length - popcount L.length)
          innerNodesInit).2 =
      ([], (mmrNodesRun (mmrOfList m L) (L.length - popcount L.length)
        innerNodesInit).2) := by
  have hspec := mmrNodes_spec m L
  have hforest : (mmrOfList m L).forest = L.length := by rw [mmrOfList_spec]
  have hnone : mmrNodesNext (mmrOfList m L)
      (mmrNodesRun (mmrOfList m L) (L.length - popcount L.length)
        innerNodesInit).2 = none := by
    rw [hspec]
    apply next_done
    rw [hforest]
    simp
  have hlen : (specInner m (bitsDesc L.length) L).length =
      L.length - popcount L.length := by
    have h := length_specInner m (bitsDesc L.length) L
    have h2 : sumPow (bitsDesc L.length) = L.length := by
      rw [bitsDesc, sumPow_reverse, sumPow_bitsAsc]
    have h3 : (bitsDesc L.length).length = popcount L.length := by
      simp [bitsDesc, length_bitsAsc]
    omega
  refine ⟨by rw [hspec], by rw [hspec]; exact hlen, ?_, hnone,
    fun fuel => mmrNodesRun_none _ _ hnone fuel⟩
  rw [hspec]
  exact specInner_merged m (bitsDesc L.length) L

end Claims

end MmrSpec
